import Mathlib

/-!
Verification of the Quantum Tic-Tac-Toe rules engine
(`QuantumTicTacToeLogic` in `quantum_ttt.py`).

The engine is shallowly embedded: the mutable `QuantumTicTacToeLogic`
object becomes an explicit `GameState` record, each mutating method
becomes a state-passing function, and Python exceptions (the `assert`
statements and out-of-range list indexing) are modelled by an `Option`
result, `none` meaning the call raised.  Python's unbounded `while`
loops are embedded as fuel-indexed recursions; the wrappers pass a fuel
that is proven sufficient, so the embedded functions agree with the
terminating Python loops.
-/

namespace QTTT

/-- The two players, `'X'` and `'O'` in the source. -/
inductive Player where
  | X : Player
  | O : Player
deriving DecidableEq, Repr

/-- The game mode strings `'PLAY'` and `'COLLAPSE'`. -/
inductive Mode where
  | PLAY : Mode
  | COLLAPSE : Mode
deriving DecidableEq, Repr

/-- `other_player` from the source: `'O' if p == 'X' else 'X'`. -/
def other_player (p : Player) : Player :=
  match p with
  | Player.X => Player.O
  | Player.O => Player.X

/-- The `Move` dataclass: player, per-player move index, the two cells,
and the optional square the move collapsed to. -/
structure Move where
  player : Player
  index : Nat
  cells : Nat × Nat
  collapsed_to : Option Nat := none
deriving DecidableEq, Repr

/-- A classical-board entry: `None` or a `(player, index)` pair. -/
abbrev BoardCell := Option (Player × Nat)

/-- `collapsed_board`: a list of nine optional `(player, index)` entries. -/
abbrev Board := List BoardCell

/-- The mutable state of a `QuantumTicTacToeLogic` object. -/
structure GameState where
  moves : List Move
  collapsed_board : Board
  move_counter : Player → Nat
  current_player : Player
  mode : Mode
  collapse_chooser : Option Player
  cycle_creator : Option Player
  next_player_after_collapse : Option Player
  collapse_moves : List Move
  collapse_index : Nat

/-- `reset`: the freshly initialised state. -/
def resetState : GameState where
  moves := []
  collapsed_board := List.replicate 9 none
  move_counter := fun _ => 0
  current_player := Player.X
  mode := Mode.PLAY
  collapse_chooser := none
  cycle_creator := none
  next_player_after_collapse := none
  collapse_moves := []
  collapse_index := 0

/-- `build_adjacency`: the dict of neighbour sets, read as a function
from a square to the list of squares some move connects it to.
Set-valued dict entries are modelled as membership-equivalent lists
(duplicates and ordering inside a neighbour set never affect the
traversals' results, which are sets / booleans). -/
def build_adjacency (moves : List Move) (u : Nat) : List Nat :=
  moves.foldr
    (fun m acc =>
      (if m.cells.1 = u then [m.cells.2] else []) ++
      (if m.cells.2 = u then [m.cells.1] else []) ++ acc)
    []

/-- All squares mentioned by a list of moves. -/
def cellsOf (moves : List Move) : List Nat :=
  moves.foldr (fun m acc => m.cells.1 :: m.cells.2 :: acc) []

/-- The finite universe of squares a traversal started at `start` can
ever touch: `start` itself plus every square of every move. -/
def univOf (moves : List Move) (start : Nat) : Finset Nat :=
  insert start (cellsOf moves).toFinset

/-- Fuel sufficient for the source's DFS/BFS `while` loops: one unit
for the initial worklist entry plus, for every square in the universe,
one unit for its first visit and one per neighbour pushed from it.
The loops in the source terminate for exactly this counting reason. -/
def traversalFuel (moves : List Move) (start : Nat) : Nat :=
  1 + Finset.sum (univOf moves start) (fun u => 1 + (build_adjacency moves u).length)

/-- The `while stack:` loop of `get_connected_component`.  Python pops
from / appends to the end of its stack list; the embedding pushes and
pops at the head, which only permutes the visiting order and leaves the
computed set of squares unchanged. -/
def dfsLoop (adj : Nat → List Nat) : Nat → List Nat → List Nat → List Nat
  | 0, comp, _ => comp
  | _ + 1, comp, [] => comp
  | fuel + 1, comp, node :: stack =>
    if node ∈ comp then dfsLoop adj fuel comp stack
    else
      dfsLoop adj fuel (node :: comp)
        (((adj node).filter (fun v => decide (v ∉ node :: comp))) ++ stack)

/-- `get_connected_component(adj, start_node)`; the adjacency is built
from the move list it always comes from, so the fuel for the `while`
loop can be computed alongside it. -/
def get_connected_component (moves : List Move) (start : Nat) : List Nat :=
  dfsLoop (build_adjacency moves) (traversalFuel moves start) [] [start]

/-- The `for v in adj.get(u, [])` body of `bfs_reachable`: scan the
neighbours of the dequeued square, returning `none` as soon as some
neighbour equals the target (the source's early `return True`),
otherwise the enlarged visited set and queue. -/
def bfsScan (target : Nat) : List Nat → List Nat → List Nat → Option (List Nat × List Nat)
  | [], visited, q => some (visited, q)
  | v :: vs, visited, q =>
    if v = target then none
    else if v ∈ visited then bfsScan target vs visited q
    else bfsScan target vs (v :: visited) (q ++ [v])

/-- The `while q:` loop of `bfs_reachable`: dequeue from the front,
scan the neighbours, stop with `true` when the target shows up. -/
def bfsLoop (adj : Nat → List Nat) (target : Nat) : Nat → List Nat → List Nat → Bool
  | 0, _, _ => false
  | _ + 1, _, [] => false
  | fuel + 1, visited, u :: q =>
    match bfsScan target (adj u) visited q with
    | none => true
    | some (visited2, q2) => bfsLoop adj target fuel visited2 q2

/-- `bfs_reachable(adj, start, target)` with the adjacency built from
the move list it always comes from. -/
def bfs_reachable (moves : List Move) (start target : Nat) : Bool :=
  if start = target then true
  else bfsLoop (build_adjacency moves) target (traversalFuel moves start) [start] [start]

/-- `would_create_loop(new_cells)`: reachability between the two new
cells in the graph of the current (pre-insertion) moves. -/
def would_create_loop (moves : List Move) (new_cells : Nat × Nat) : Bool :=
  bfs_reachable moves new_cells.1 new_cells.2

/-- The `free = [c for c in m.cells if self.collapsed_board[c] is None]`
comprehension of the propagation loop; `none` models an `IndexError`
from reading `collapsed_board[c]` with an out-of-range cell. -/
def freeCellsRead (b : Board) (m : Move) : Option (List Nat) :=
  match b[m.cells.1]?, b[m.cells.2]? with
  | some v1, some v2 =>
    some ((if v1 = none then [m.cells.1] else []) ++
      (if v2 = none then [m.cells.2] else []))
  | _, _ => none

/-- One pass of the forced-propagation `for m in self.collapse_moves:`
loop: every still-unresolved move whose cells have exactly one
unoccupied square left is resolved to it and the board marked; the
returned flag records whether the pass changed anything. -/
def scanOnce : List Move → Board → Option (List Move × Board × Bool)
  | [], b => some ([], b, false)
  | m :: rest, b =>
    match m.collapsed_to with
    | some _ =>
      match scanOnce rest b with
      | none => none
      | some (rs, b2, ch) => some (m :: rs, b2, ch)
    | none =>
      match freeCellsRead b m with
      | some [c] =>
        match scanOnce rest (b.set c (some (m.player, m.index))) with
        | none => none
        | some (rs, b2, _) =>
          some ({ m with collapsed_to := some c } :: rs, b2, true)
      | some _ =>
        match scanOnce rest b with
        | none => none
        | some (rs, b2, ch) => some (m :: rs, b2, ch)
      | none => none

/-- The `while changed:` propagation loop: rerun the full pass until a
pass reports no change (the state after an unchanged pass is the state
before it).  Fuel-indexed; each changing pass resolves at least one
move, so `length + 1` units (as passed by `collapse_step`) always
suffice to reach the fixpoint. -/
def propagate : Nat → List Move → Board → Option (List Move × Board)
  | 0, ms, b => some (ms, b)
  | fuel + 1, ms, b =>
    match scanOnce ms b with
    | none => none
    | some (ms2, b2, ch) => if ch then propagate fuel ms2 b2 else some (ms, b)

/-- The body of the cursor-advancing `while` loop of `collapse_step`,
recursing on the exact number `ms.length - i` of remaining iterations
(the loop stops at the latest when the cursor reaches the end). -/
def advanceFrom (ms : List Move) : Nat → Nat → Nat
  | 0, i => i
  | fuel + 1, i =>
    if h : i < ms.length then
      if (ms.get ⟨i, h⟩).collapsed_to.isSome then advanceFrom ms fuel (i + 1) else i
    else i

/-- The cursor-advancing `while` loop of `collapse_step`: skip past
every already-resolved move. -/
def advanceCursor (ms : List Move) (i : Nat) : Nat :=
  advanceFrom ms (ms.length - i) i

/-- The tail of an accepted `collapse_step`: advance the cursor past
resolved moves; at end-of-list return to `PLAY` and hand the turn to
the recorded next player when one is set. -/
def finishStep (st : GameState) (cms2 : List Move) (bd2 : Board) : GameState :=
  let ci := advanceCursor cms2 st.collapse_index
  if cms2.length ≤ ci then
    { st with
      collapse_moves := cms2
      collapsed_board := bd2
      collapse_index := ci
      mode := Mode.PLAY
      current_player :=
        match st.next_player_after_collapse with
        | some p => p
        | none => st.current_player }
  else
    { st with
      collapse_moves := cms2
      collapsed_board := bd2
      collapse_index := ci }

/-- `collapse_step(chosen_cell)`.  Returns `none` when the Python code
raises (`assert self.mode == 'COLLAPSE'` failing, or an out-of-range
board read), otherwise the new state and the boolean result. -/
def collapse_step (st : GameState) (chosen_cell : Nat) : Option (GameState × Bool) :=
  if st.mode = Mode.COLLAPSE then
    if h : st.collapse_index < st.collapse_moves.length then
      let mv := st.collapse_moves.get ⟨st.collapse_index, h⟩
      if chosen_cell = mv.cells.1 ∨ chosen_cell = mv.cells.2 then
        match st.collapsed_board[chosen_cell]? with
        | none => none
        | some (some _) => some (st, false)
        | some none =>
          let cms := st.collapse_moves.set st.collapse_index
            { mv with collapsed_to := some chosen_cell }
          let bd := st.collapsed_board.set chosen_cell (some (mv.player, mv.index))
          match propagate (cms.length + 1) cms bd with
          | none => none
          | some (cms2, bd2) => some (finishStep st cms2 bd2, true)
      else some (st, false)
    else some (st, true)
  else none

/-- `add_spooky_move(cell1, cell2)`.  `none` models a failing
precondition `assert`; otherwise the updated state.  The source
locates the newly appended move in `to_collapse` by object identity
(`m is mv`); the new move is by identity the last element of
`self.moves` and hence of `to_collapse`, so the found position is
`to_collapse.length - 1`. -/
def newMove (st : GameState) (cell1 cell2 : Nat) : Move :=
  { player := st.current_player
    index := st.move_counter st.current_player + 1
    cells := (cell1, cell2) }

def bumpCounter (st : GameState) : Player → Nat :=
  fun p =>
    if p = st.current_player then st.move_counter st.current_player + 1
    else st.move_counter p

def add_spooky_move (st : GameState) (cell1 cell2 : Nat) : Option GameState :=
  if st.mode = Mode.PLAY ∧ cell1 ≠ cell2 then
    let loop := would_create_loop st.moves (cell1, cell2)
    let counter2 := bumpCounter st
    let mv := newMove st cell1 cell2
    let moves2 := st.moves ++ [mv]
    if loop then
      let involved := get_connected_component moves2 cell1
      let to_collapse := moves2.filter (fun m => decide (m.cells.1 ∈ involved))
      let to_keep := moves2.filter (fun m => decide (m.cells.1 ∉ involved))
      some { st with
        move_counter := counter2
        cycle_creator := some st.current_player
        collapse_chooser := some (other_player st.current_player)
        next_player_after_collapse := some (other_player st.current_player)
        moves := to_keep
        collapse_moves := to_collapse
        mode := Mode.COLLAPSE
        collapse_index := to_collapse.length - 1 }
    else
      some { st with
        move_counter := counter2
        moves := moves2
        current_player := other_player st.current_player }
  else none

/-- The eight tic-tac-toe lines of `check_winner`. -/
def winLines : List (Nat × Nat × Nat) :=
  [(0, 1, 2), (3, 4, 5), (6, 7, 8),
   (0, 3, 6), (1, 4, 7), (2, 5, 8),
   (0, 4, 8), (2, 4, 6)]

/-- A board read at one of the eight lines' constant indices; the board
always has nine cells, so a total default read is exact. -/
def readCell (b : Board) (c : Nat) : BoardCell :=
  b.getD c none

/-- The result tuple of `check_winner`. -/
inductive WinResult where
  | noWinner : WinResult
  | draw (s : Nat) : WinResult
  | winner (p : Player) (line : Nat × Nat × Nat) (s : Nat) : WinResult
  | winnerBoth (p : Player) (line : Nat × Nat × Nat) (s : Nat)
      (q : Player) (qline : Nat × Nat × Nat) (qs : Nat) : WinResult
deriving DecidableEq, Repr

/-- One iteration of `check_winner`'s line scan: if the three squares
of the line are occupied by the same player `p`, the line together
with the sum of the three occupying indices. -/
def winsForEntry (b : Board) (p : Player) (l : Nat × Nat × Nat) :
    Option ((Nat × Nat × Nat) × Nat) :=
  match readCell b l.1, readCell b l.2.1, readCell b l.2.2 with
  | some (pa, ia), some (pb, ib), some (pc, ic) =>
    if pa = p ∧ pb = p ∧ pc = p then some (l, ia + ib + ic) else none
  | _, _, _ => none

/-- The `wins[p]` list built by `check_winner`'s line scan: lines fully
occupied by `p`, each with the sum of the three occupying indices,
in line-enumeration order. -/
def winsFor (b : Board) (p : Player) : List ((Nat × Nat × Nat) × Nat) :=
  winLines.filterMap (winsForEntry b p)

/-- Python's `min(entries, key=lambda t: t[1])` over a nonempty list:
fold keeping the earliest entry with the strictly smallest key. -/
def minBySum (x : (Nat × Nat × Nat) × Nat) (xs : List ((Nat × Nat × Nat) × Nat)) :
    (Nat × Nat × Nat) × Nat :=
  xs.foldl (fun best t => if t.2 < best.2 then t else best) x

/-- `check_winner()`, operating on a board snapshot. -/
def check_winner (b : Board) : WinResult :=
  match winsFor b Player.X, winsFor b Player.O with
  | [], [] => WinResult.noWinner
  | x :: xs, [] =>
    let m := minBySum x xs
    WinResult.winner Player.X m.1 m.2
  | [], o :: os =>
    let m := minBySum o os
    WinResult.winner Player.O m.1 m.2
  | x :: xs, o :: os =>
    let mx := minBySum x xs
    let mo := minBySum o os
    if mx.2 < mo.2 then WinResult.winnerBoth Player.X mx.1 mx.2 Player.O mo.1 mo.2
    else if mo.2 < mx.2 then WinResult.winnerBoth Player.O mo.1 mo.2 Player.X mx.1 mx.2
    else WinResult.draw mx.2

/-! ### The undirected graph of spooky moves -/

/-- The mathematical edge relation of the graph: two squares are joined
exactly when some move's cell pair is `(u, v)` or `(v, u)`. -/
def EdgeRel (moves : List Move) (u v : Nat) : Prop :=
  ∃ m ∈ moves, (m.cells.1 = u ∧ m.cells.2 = v) ∨ (m.cells.1 = v ∧ m.cells.2 = u)

/-- Reachability in the graph of the given moves. -/
def Reach (moves : List Move) : Nat → Nat → Prop :=
  Relation.ReflTransGen (EdgeRel moves)

theorem EdgeRel.symm {moves : List Move} {u v : Nat}
    (h : EdgeRel moves u v) : EdgeRel moves v u := by
  obtain ⟨m, hm, h | h⟩ := h
  · exact ⟨m, hm, Or.inr h⟩
  · exact ⟨m, hm, Or.inl h⟩

theorem build_adjacency_cons (m : Move) (ms : List Move) (u : Nat) :
    build_adjacency (m :: ms) u =
      (if m.cells.1 = u then [m.cells.2] else []) ++
      (if m.cells.2 = u then [m.cells.1] else []) ++ build_adjacency ms u := rfl

/-- Membership in the adjacency lists coincides with the edge relation. -/
theorem mem_build_adjacency {moves : List Move} {u v : Nat} :
    v ∈ build_adjacency moves u ↔ EdgeRel moves u v := by
  induction moves with
  | nil => simp [build_adjacency, EdgeRel]
  | cons m ms ih =>
    rw [build_adjacency_cons]
    simp only [List.mem_append, ih, EdgeRel, List.mem_cons]
    constructor
    · rintro ((h | h) | ⟨m', hm', hc⟩)
      · split_ifs at h with h1
        · simp only [List.mem_singleton] at h
          exact ⟨m, Or.inl rfl, Or.inl ⟨h1, h.symm⟩⟩
        · simp at h
      · split_ifs at h with h2
        · simp only [List.mem_singleton] at h
          exact ⟨m, Or.inl rfl, Or.inr ⟨h.symm, h2⟩⟩
        · simp at h
      · exact ⟨m', Or.inr hm', hc⟩
    · rintro ⟨m', h | hm', hc⟩
      · subst h
        rcases hc with ⟨h1, h2⟩ | ⟨h1, h2⟩
        · exact Or.inl (Or.inl (by simp [h1, h2]))
        · exact Or.inl (Or.inr (by simp [h1, h2]))
      · exact Or.inr ⟨m', hm', hc⟩

theorem mem_cellsOf {moves : List Move} {x : Nat} :
    x ∈ cellsOf moves ↔ ∃ m ∈ moves, m.cells.1 = x ∨ m.cells.2 = x := by
  induction moves with
  | nil => simp [cellsOf]
  | cons m ms ih =>
    simp only [cellsOf, List.foldr_cons, List.mem_cons] at *
    rw [show (List.foldr (fun m acc => m.cells.1 :: m.cells.2 :: acc) [] ms) =
      cellsOf ms from rfl] at *
    constructor
    · rintro (h | h | h)
      · exact ⟨m, Or.inl rfl, Or.inl h.symm⟩
      · exact ⟨m, Or.inl rfl, Or.inr h.symm⟩
      · obtain ⟨m', hm', hc⟩ := ih.mp h
        exact ⟨m', Or.inr hm', hc⟩
    · rintro ⟨m', h | hm', hc⟩
      · subst h
        rcases hc with h | h
        · exact Or.inl h.symm
        · exact Or.inr (Or.inl h.symm)
      · exact Or.inr (Or.inr (ih.mpr ⟨m', hm', hc⟩))

theorem adj_mem_univ {moves : List Move} {start u v : Nat}
    (h : v ∈ build_adjacency moves u) : v ∈ univOf moves start := by
  obtain ⟨m, hm, ⟨_, h2⟩ | ⟨h1, _⟩⟩ := mem_build_adjacency.mp h
  · exact Finset.mem_insert_of_mem (List.mem_toFinset.mpr (mem_cellsOf.mpr ⟨m, hm, Or.inr h2⟩))
  · exact Finset.mem_insert_of_mem (List.mem_toFinset.mpr (mem_cellsOf.mpr ⟨m, hm, Or.inl h1⟩))

/-- The termination potential of the DFS/BFS worklist loops: one unit
per pending worklist entry plus, for every not-yet-visited square of
the universe, one for its visit and one per neighbour it will push. -/
def adjWeight (adj : Nat → List Nat) (univ : Finset Nat) (visited : List Nat) : Nat :=
  Finset.sum (univ.filter (fun u => u ∉ visited)) (fun u => 1 + (adj u).length)

theorem adjWeight_nil (adj : Nat → List Nat) (univ : Finset Nat) :
    adjWeight adj univ [] = Finset.sum univ (fun u => 1 + (adj u).length) := by
  simp [adjWeight]

theorem adjWeight_cons {adj : Nat → List Nat} {univ : Finset Nat}
    {visited : List Nat} {node : Nat} (hu : node ∈ univ) (hnv : node ∉ visited) :
    adjWeight adj univ (node :: visited) + (1 + (adj node).length) =
      adjWeight adj univ visited := by
  have hset : univ.filter (fun u => u ∉ visited) =
      insert node (univ.filter (fun u => u ∉ (node :: visited))) := by
    ext u
    simp only [Finset.mem_filter, Finset.mem_insert, List.mem_cons]
    constructor
    · rintro ⟨huu, hv⟩
      by_cases h : u = node
      · exact Or.inl h
      · exact Or.inr ⟨huu, fun hh => hh.elim h hv⟩
    · rintro (h | ⟨huu, hv⟩)
      · subst h; exact ⟨hu, hnv⟩
      · exact ⟨huu, fun hh => hv (Or.inr hh)⟩
  have hnot : node ∉ univ.filter (fun u => u ∉ (node :: visited)) := by
    simp [Finset.mem_filter]
  rw [adjWeight, adjWeight, hset, Finset.sum_insert hnot]
  omega

theorem adjWeight_le_nil (adj : Nat → List Nat) (univ : Finset Nat) (visited : List Nat) :
    adjWeight adj univ visited ≤ adjWeight adj univ [] := by
  rw [adjWeight, adjWeight_nil]
  exact Finset.sum_le_sum_of_subset (Finset.filter_subset _ _)

/-! ### Correctness of the DFS component computation -/

/-- The step relation the traversals follow: one hop along an adjacency
list. -/
def AdjStep (adj : Nat → List Nat) (a b : Nat) : Prop := b ∈ adj a

theorem dfsLoop_spec (adj : Nat → List Nat) (univ : Finset Nat) (start : Nat)
    (hadjU : ∀ u v, v ∈ adj u → v ∈ univ) :
    ∀ fuel comp stack,
      stack.length + adjWeight adj univ comp ≤ fuel →
      (∀ x ∈ stack, x ∈ univ) →
      (∀ x ∈ comp, Relation.ReflTransGen (AdjStep adj) start x) →
      (∀ x ∈ stack, Relation.ReflTransGen (AdjStep adj) start x) →
      (∀ u ∈ comp, ∀ v ∈ adj u, v ∈ comp ∨ v ∈ stack) →
      (∀ x ∈ comp, x ∈ dfsLoop adj fuel comp stack) ∧
      (∀ x ∈ stack, x ∈ dfsLoop adj fuel comp stack) ∧
      (∀ x ∈ dfsLoop adj fuel comp stack, Relation.ReflTransGen (AdjStep adj) start x) ∧
      (∀ u ∈ dfsLoop adj fuel comp stack, ∀ v ∈ adj u, v ∈ dfsLoop adj fuel comp stack) := by
  intro fuel
  induction fuel with
  | zero =>
    intro comp stack hfuel _ hcompR _ hclose
    have hstack : stack = [] := by
      cases stack with
      | nil => rfl
      | cons a l => simp at hfuel
    subst hstack
    refine ⟨fun x hx => hx, by simp, hcompR, ?_⟩
    intro u hu v hv
    rcases hclose u hu v hv with h | h
    · exact h
    · simp at h
  | succ fuel ih =>
    intro comp stack hfuel hstackU hcompR hstackR hclose
    cases stack with
    | nil =>
      simp only [dfsLoop]
      refine ⟨fun x hx => hx, by simp, hcompR, ?_⟩
      intro u hu v hv
      rcases hclose u hu v hv with h | h
      · exact h
      · simp at h
    | cons node stack =>
      by_cases hmem : node ∈ comp
      · have hrec := ih comp stack
          (by simp only [List.length_cons] at hfuel; omega)
          (fun x hx => hstackU x (List.mem_cons_of_mem _ hx))
          hcompR
          (fun x hx => hstackR x (List.mem_cons_of_mem _ hx))
          (by
            intro u hu v hv
            rcases hclose u hu v hv with h | h
            · exact Or.inl h
            · rcases List.mem_cons.mp h with h | h
              · exact Or.inl (h ▸ hmem)
              · exact Or.inr h)
        rw [show dfsLoop adj (fuel + 1) comp (node :: stack) = dfsLoop adj fuel comp stack by
          simp [dfsLoop, hmem]]
        exact ⟨hrec.1, fun x hx => (List.mem_cons.mp hx).elim
          (fun h => hrec.1 _ (h ▸ hmem)) (hrec.2.1 x), hrec.2.2⟩
      · have hnodeU : node ∈ univ := hstackU node (List.mem_cons_self _ _)
        have hw := @adjWeight_cons adj univ comp node hnodeU hmem
        have hfuel2 :
            ((adj node).filter (fun v => decide (v ∉ node :: comp)) ++ stack).length +
              adjWeight adj univ (node :: comp) ≤ fuel := by
          have hlen : ((adj node).filter (fun v => decide (v ∉ node :: comp))).length ≤
              (adj node).length := List.length_filter_le _ _
          simp only [List.length_append, List.length_cons] at *
          omega
        have hnodeR : Relation.ReflTransGen (AdjStep adj) start node :=
          hstackR node (List.mem_cons_self _ _)
        have hrec := ih (node :: comp)
          ((adj node).filter (fun v => decide (v ∉ node :: comp)) ++ stack)
          hfuel2
          (by
            intro x hx
            rcases List.mem_append.mp hx with h | h
            · exact hadjU node x (List.mem_of_mem_filter h)
            · exact hstackU x (List.mem_cons_of_mem _ h))
          (by
            intro x hx
            rcases List.mem_cons.mp hx with h | h
            · exact h ▸ hnodeR
            · exact hcompR x h)
          (by
            intro x hx
            rcases List.mem_append.mp hx with h | h
            · exact Relation.ReflTransGen.tail hnodeR (List.mem_of_mem_filter h)
            · exact hstackR x (List.mem_cons_of_mem _ h))
          (by
            intro u hu v hv
            rcases List.mem_cons.mp hu with h | h
            · rw [h] at hv
              by_cases hvc : v ∈ node :: comp
              · exact Or.inl hvc
              · exact Or.inr (List.mem_append.mpr (Or.inl
                  (List.mem_filter.mpr ⟨hv, by simpa using hvc⟩)))
            · rcases hclose u h v hv with h2 | h2
              · exact Or.inl (List.mem_cons_of_mem _ h2)
              · rcases List.mem_cons.mp h2 with h3 | h3
                · exact Or.inl (h3 ▸ List.mem_cons_self _ _)
                · exact Or.inr (List.mem_append.mpr (Or.inr h3)))
        rw [show dfsLoop adj (fuel + 1) comp (node :: stack) =
            dfsLoop adj fuel (node :: comp)
              ((adj node).filter (fun v => decide (v ∉ node :: comp)) ++ stack) by
          simp [dfsLoop, hmem]]
        refine ⟨fun x hx => hrec.1 x (List.mem_cons_of_mem _ hx), ?_, hrec.2.2⟩
        intro x hx
        rcases List.mem_cons.mp hx with h | h
        · exact hrec.1 x (h ▸ List.mem_cons_self _ _)
        · exact hrec.2.1 x (List.mem_append.mpr (Or.inr h))

/-- Transfer between one-hop steps on adjacency lists and the edge
relation. -/
theorem reflTransGen_adjStep_iff {moves : List Move} {a b : Nat} :
    Relation.ReflTransGen (AdjStep (build_adjacency moves)) a b ↔ Reach moves a b := by
  constructor
  · exact Relation.ReflTransGen.mono (fun x y h => mem_build_adjacency.mp h)
  · exact Relation.ReflTransGen.mono (fun x y h => mem_build_adjacency.mpr h)

/-- `get_connected_component` computes exactly the set of squares
reachable from `start` in the graph of the given moves. -/
theorem mem_get_connected_component {moves : List Move} {start x : Nat} :
    x ∈ get_connected_component moves start ↔ Reach moves start x := by
  have hspec := dfsLoop_spec (build_adjacency moves) (univOf moves start) start
    (fun u v hv => adj_mem_univ hv) (traversalFuel moves start) [] [start]
    (by
      rw [adjWeight_nil]
      simp [traversalFuel])
    (by simp [univOf])
    (by simp)
    (by
      intro y hy
      rw [List.mem_singleton] at hy
      exact hy ▸ Relation.ReflTransGen.refl)
    (by simp)
  rw [get_connected_component]
  constructor
  · intro hx
    exact reflTransGen_adjStep_iff.mp (hspec.2.2.1 x hx)
  · intro hx
    have h2 := reflTransGen_adjStep_iff.mpr hx
    clear hx
    induction h2 with
    | refl => exact hspec.2.1 start (List.mem_singleton.mpr rfl)
    | tail _ hstep ih => exact hspec.2.2.2 _ ih _ hstep

/-- The start square always lies in its own component. -/
theorem start_mem_get_connected_component (moves : List Move) (start : Nat) :
    start ∈ get_connected_component moves start :=
  mem_get_connected_component.mpr Relation.ReflTransGen.refl

/-! ### Correctness of the BFS reachability check -/

theorem bfsScan_none {target : Nat} :
    ∀ {vs visited q : List Nat}, bfsScan target vs visited q = none → target ∈ vs := by
  intro vs
  induction vs with
  | nil => intro visited q h; simp [bfsScan] at h
  | cons v vs ih =>
    intro visited q h
    rw [bfsScan] at h
    split_ifs at h with h1 h2
    · exact h1 ▸ List.mem_cons_self _ _
    · exact List.mem_cons_of_mem _ (ih h)
    · exact List.mem_cons_of_mem _ (ih h)

theorem bfsScan_some {target : Nat} (adj : Nat → List Nat) (univ : Finset Nat) :
    ∀ {vs visited q visited2 q2 : List Nat},
      bfsScan target vs visited q = some (visited2, q2) →
      (∀ x ∈ vs, x ∈ univ) →
      (∀ x ∈ visited, x ∈ visited2) ∧
      (∀ x ∈ visited2, x ∈ visited ∨ x ∈ vs) ∧
      (∀ x ∈ vs, x ≠ target ∧ x ∈ visited2) ∧
      (∀ x ∈ q2, x ∈ q ∨ x ∈ visited2) ∧
      (∀ x ∈ q, x ∈ q2) ∧
      (∀ x ∈ visited2, x ∈ visited ∨ x ∈ q2) ∧
      (q2.length + adjWeight adj univ visited2 ≤ q.length + adjWeight adj univ visited) := by
  intro vs
  induction vs with
  | nil =>
    intro visited q visited2 q2 h _
    rw [bfsScan] at h
    injection h with h
    injection h with h1 h2
    subst h1; subst h2
    exact ⟨fun x hx => hx, fun x hx => Or.inl hx, by simp,
      fun x hx => Or.inl hx, fun x hx => hx, fun x hx => Or.inl hx, le_rfl⟩
  | cons v vs ih =>
    intro visited q visited2 q2 h hvsU
    rw [bfsScan] at h
    split_ifs at h with h1 h2
    · have hrec := ih h (fun x hx => hvsU x (List.mem_cons_of_mem _ hx))
      refine ⟨hrec.1, ?_, ?_, hrec.2.2.2.1, hrec.2.2.2.2.1, hrec.2.2.2.2.2.1,
        hrec.2.2.2.2.2.2⟩
      · intro x hx
        rcases hrec.2.1 x hx with h3 | h3
        · exact Or.inl h3
        · exact Or.inr (List.mem_cons_of_mem _ h3)
      · intro x hx
        rcases List.mem_cons.mp hx with h3 | h3
        · exact ⟨h3 ▸ h1, h3 ▸ hrec.1 v h2⟩
        · exact hrec.2.2.1 x h3
    · have hvU : v ∈ univ := hvsU v (List.mem_cons_self _ _)
      by_cases hvv : v ∈ visited
      · exact absurd hvv h2
      · have hrec := ih h (fun x hx => hvsU x (List.mem_cons_of_mem _ hx))
        have hw := @adjWeight_cons adj univ visited v hvU hvv
        refine ⟨?_, ?_, ?_, ?_, ?_, ?_, ?_⟩
        · intro x hx
          exact hrec.1 x (List.mem_cons_of_mem _ hx)
        · intro x hx
          rcases hrec.2.1 x hx with h3 | h3
          · rcases List.mem_cons.mp h3 with h4 | h4
            · exact Or.inr (h4 ▸ List.mem_cons_self _ _)
            · exact Or.inl h4
          · exact Or.inr (List.mem_cons_of_mem _ h3)
        · intro x hx
          rcases List.mem_cons.mp hx with h3 | h3
          · exact ⟨h3 ▸ h1, h3 ▸ hrec.1 v (List.mem_cons_self _ _)⟩
          · exact hrec.2.2.1 x h3
        · intro x hx
          rcases hrec.2.2.2.1 x hx with h3 | h3
          · rcases List.mem_append.mp h3 with h4 | h4
            · exact Or.inl h4
            · rw [List.mem_singleton] at h4
              exact Or.inr (h4 ▸ hrec.1 v (List.mem_cons_self _ _))
          · exact Or.inr h3
        · intro x hx
          exact hrec.2.2.2.2.1 x (List.mem_append.mpr (Or.inl hx))
        · intro x hx
          rcases hrec.2.2.2.2.2.1 x hx with h3 | h3
          · rcases List.mem_cons.mp h3 with h4 | h4
            · exact Or.inr (h4 ▸ hrec.2.2.2.2.1 v
                (List.mem_append.mpr (Or.inr (List.mem_singleton.mpr rfl))))
            · exact Or.inl h4
          · exact Or.inr h3
        · have := hrec.2.2.2.2.2.2
          simp only [List.length_append, List.length_singleton] at this
          omega

theorem bfsScan_mem {target : Nat} :
    ∀ {vs visited q visited2 q2 : List Nat},
      bfsScan target vs visited q = some (visited2, q2) →
      (∀ x ∈ visited, x ∈ visited2) ∧
      (∀ x ∈ visited2, x ∈ visited ∨ x ∈ vs) ∧
      (∀ x ∈ q2, x ∈ q ∨ x ∈ visited2) := by
  intro vs
  induction vs with
  | nil =>
    intro visited q visited2 q2 h
    rw [bfsScan] at h
    injection h with h
    injection h with h1 h2
    subst h1; subst h2
    exact ⟨fun x hx => hx, fun x hx => Or.inl hx, fun x hx => Or.inl hx⟩
  | cons v vs ih =>
    intro visited q visited2 q2 h
    rw [bfsScan] at h
    split_ifs at h with h1 h2
    · have hrec := ih h
      refine ⟨hrec.1, ?_, hrec.2.2⟩
      intro x hx
      rcases hrec.2.1 x hx with h3 | h3
      · exact Or.inl h3
      · exact Or.inr (List.mem_cons_of_mem _ h3)
    · have hrec := ih h
      refine ⟨?_, ?_, ?_⟩
      · intro x hx
        exact hrec.1 x (List.mem_cons_of_mem _ hx)
      · intro x hx
        rcases hrec.2.1 x hx with h3 | h3
        · rcases List.mem_cons.mp h3 with h4 | h4
          · exact Or.inr (h4 ▸ List.mem_cons_self _ _)
          · exact Or.inl h4
        · exact Or.inr (List.mem_cons_of_mem _ h3)
      · intro x hx
        rcases hrec.2.2 x hx with h3 | h3
        · rcases List.mem_append.mp h3 with h4 | h4
          · exact Or.inl h4
          · rw [List.mem_singleton] at h4
            exact Or.inr (h4 ▸ hrec.1 v (List.mem_cons_self _ _))
        · exact Or.inr h3

theorem bfsLoop_true (adj : Nat → List Nat) (target start : Nat) :
    ∀ fuel (visited q : List Nat),
      (∀ x ∈ visited, Relation.ReflTransGen (AdjStep adj) start x) →
      (∀ x ∈ q, x ∈ visited) →
      bfsLoop adj target fuel visited q = true →
      Relation.ReflTransGen (AdjStep adj) start target := by
  intro fuel
  induction fuel with
  | zero => intro visited q _ _ h; simp [bfsLoop] at h
  | succ fuel ih =>
    intro visited q hvisR hqv h
    cases q with
    | nil => simp [bfsLoop] at h
    | cons u q =>
      rw [bfsLoop] at h
      cases hscan : bfsScan target (adj u) visited q with
      | none =>
        have htv : target ∈ adj u := bfsScan_none hscan
        exact Relation.ReflTransGen.tail (hvisR u (hqv u (List.mem_cons_self _ _))) htv
      | some p =>
        obtain ⟨visited2, q2⟩ := p
        rw [hscan] at h
        have huR : Relation.ReflTransGen (AdjStep adj) start u :=
          hvisR u (hqv u (List.mem_cons_self _ _))
        have hsp := bfsScan_mem hscan
        refine ih visited2 q2 ?_ ?_ h
        · intro x hx
          rcases hsp.2.1 x hx with h3 | h3
          · exact hvisR x h3
          · exact Relation.ReflTransGen.tail huR h3
        · intro x hx
          rcases hsp.2.2 x hx with h3 | h3
          · exact hsp.1 x (hqv x (List.mem_cons_of_mem _ h3))
          · exact h3

/-- Every square reachable from a member of an adjacency-closed set of
squares lies in the set. -/
theorem reach_mem_of_closed {adj : Nat → List Nat} {start : Nat} {visited : List Nat}
    (hstart : start ∈ visited)
    (hclose : ∀ u ∈ visited, ∀ v ∈ adj u, v ∈ visited) :
    ∀ x, Relation.ReflTransGen (AdjStep adj) start x → x ∈ visited := by
  intro x h
  induction h with
  | refl => exact hstart
  | tail _ hstep ih => exact hclose _ ih _ hstep

theorem bfsLoop_false (adj : Nat → List Nat) (univ : Finset Nat) (target start : Nat)
    (hadjU : ∀ u v, v ∈ adj u → v ∈ univ) :
    ∀ fuel (visited q : List Nat),
      q.length + adjWeight adj univ visited ≤ fuel →
      (∀ x ∈ q, x ∈ visited) →
      start ∈ visited →
      target ∉ visited →
      (∀ u ∈ visited, u ∉ q → ∀ v ∈ adj u, v ∈ visited) →
      bfsLoop adj target fuel visited q = false →
      ¬ Relation.ReflTransGen (AdjStep adj) start target := by
  intro fuel
  induction fuel with
  | zero =>
    intro visited q hfuel hqv hstart htarget hclose _
    have hq : q = [] := by
      cases q with
      | nil => rfl
      | cons a l => simp at hfuel
    subst hq
    intro hreach
    exact htarget (reach_mem_of_closed hstart
      (fun u hu v hv => hclose u hu (by simp) v hv) target hreach)
  | succ fuel ih =>
    intro visited q hfuel hqv hstart htarget hclose hloop
    cases q with
    | nil =>
      intro hreach
      exact htarget (reach_mem_of_closed hstart
        (fun u hu v hv => hclose u hu (by simp) v hv) target hreach)
    | cons u q =>
      rw [bfsLoop] at hloop
      cases hscan : bfsScan target (adj u) visited q with
      | none => rw [hscan] at hloop; simp at hloop
      | some p =>
        obtain ⟨visited2, q2⟩ := p
        rw [hscan] at hloop
        have hsp := bfsScan_some adj univ hscan
          (fun x hx => hadjU u x hx)
        refine ih visited2 q2 ?_ ?_ (hsp.1 start hstart) ?_ ?_ hloop
        · have := hsp.2.2.2.2.2.2
          simp only [List.length_cons] at hfuel
          omega
        · intro x hx
          rcases hsp.2.2.2.1 x hx with h3 | h3
          · exact hsp.1 x (hqv x (List.mem_cons_of_mem _ h3))
          · exact h3
        · intro hx
          rcases hsp.2.1 target hx with h3 | h3
          · exact htarget h3
          · exact (hsp.2.2.1 target h3).1 rfl
        · intro u2 hu2 hu2q v hv
          rcases hsp.2.2.2.2.2.1 u2 hu2 with h3 | h3
          · by_cases hu2u : u2 = u
            · exact (hsp.2.2.1 v (hu2u ▸ hv)).2
            · have hnotin : u2 ∉ u :: q := by
                intro hm
                rcases List.mem_cons.mp hm with h4 | h4
                · exact hu2u h4
                · exact hu2q (hsp.2.2.2.2.1 u2 h4)
              exact hsp.1 v (hclose u2 h3 hnotin v hv)
          · exact absurd h3 hu2q

/-- `bfs_reachable` decides reachability in the move graph. -/
theorem bfs_reachable_iff {moves : List Move} {start target : Nat} :
    bfs_reachable moves start target = true ↔ Reach moves start target := by
  rw [bfs_reachable]
  split_ifs with h
  · subst h
    simp only [true_iff]
    exact Relation.ReflTransGen.refl
  · constructor
    · intro htrue
      refine reflTransGen_adjStep_iff.mp (bfsLoop_true _ _ _ _ [start] [start] ?_ (by simp) htrue)
      intro x hx
      rw [List.mem_singleton] at hx
      exact hx ▸ Relation.ReflTransGen.refl
    · intro hreach
      by_contra hfalse
      have hb : bfsLoop (build_adjacency moves) target (traversalFuel moves start)
          [start] [start] = false := by
        cases hbb : bfsLoop (build_adjacency moves) target (traversalFuel moves start)
            [start] [start]
        · rfl
        · exact absurd hbb hfalse
      refine bfsLoop_false (build_adjacency moves) (univOf moves start) target start
        (fun u v hv => adj_mem_univ hv) (traversalFuel moves start) [start] [start]
        ?_ (by simp) (by simp) ?_ ?_ hb (reflTransGen_adjStep_iff.mpr hreach)
      · have := adjWeight_le_nil (build_adjacency moves) (univOf moves start) [start]
        rw [adjWeight_nil] at this
        simp only [List.length_singleton, traversalFuel]
        omega
      · intro hx
        rw [List.mem_singleton] at hx
        exact h hx.symm
      · intro u hu hnu
        exact absurd hu hnu

/-- Claim C2: `would_create_loop` returns true exactly when the second
endpoint is already reachable from the first in the undirected graph of
the current unresolved moves (trivially so when the endpoints agree);
the graph is the one built before the new move joins the ledger. -/
theorem would_create_loop_iff_reach (moves : List Move) (a b : Nat) :
    would_create_loop moves (a, b) = true ↔ Reach moves a b :=
  bfs_reachable_iff

/-! ### Properties of the forced-propagation pass -/

/-- The number of still-unresolved moves in a list. -/
def unresolvedCount (ms : List Move) : Nat :=
  (ms.filter (fun m => m.collapsed_to.isNone)).length

/-- The identity of a move, as recorded on the classical board. -/
def moveId (m : Move) : Player × Nat := (m.player, m.index)

/-- Everything of a move except its resolution status. -/
def moveCore (m : Move) : Player × Nat × (Nat × Nat) := (m.player, m.index, m.cells)

/-- The identities of the still-unresolved moves of a list. -/
def unresolvedIds (ms : List Move) : List (Player × Nat) :=
  (ms.filter (fun m => m.collapsed_to.isNone)).map moveId

/-- The identities currently written on the classical board. -/
def boardIds (b : Board) : List (Player × Nat) :=
  b.filterMap id

theorem unresolvedCount_cons (m : Move) (l : List Move) :
    unresolvedCount (m :: l) =
      (if m.collapsed_to.isNone then 1 else 0) + unresolvedCount l := by
  rw [unresolvedCount, unresolvedCount, List.filter_cons]
  split_ifs with h <;> simp [h] <;> omega

theorem unresolvedCount_cons_resolved {m : Move} {l : List Move}
    (h : ¬ m.collapsed_to.isNone) :
    unresolvedCount (m :: l) = unresolvedCount l := by
  rw [unresolvedCount_cons, if_neg h]
  omega

theorem unresolvedCount_cons_unresolved {m : Move} {l : List Move}
    (h : m.collapsed_to.isNone) :
    unresolvedCount (m :: l) = 1 + unresolvedCount l := by
  rw [unresolvedCount_cons, if_pos h]

theorem unresolvedIds_cons_resolved {m : Move} {l : List Move}
    (h : ¬ m.collapsed_to.isNone) : unresolvedIds (m :: l) = unresolvedIds l := by
  simp only [unresolvedIds, List.filter_cons]
  rw [if_neg (by simpa using h)]

theorem unresolvedIds_cons_unresolved {m : Move} {l : List Move}
    (h : m.collapsed_to.isNone) : unresolvedIds (m :: l) = moveId m :: unresolvedIds l := by
  simp only [unresolvedIds, List.filter_cons]
  rw [if_pos (by simpa using h)]
  simp

theorem boardIds_cons_none (l : Board) : boardIds (none :: l) = boardIds l := rfl

theorem boardIds_cons_some (v : Player × Nat) (l : Board) :
    boardIds (some v :: l) = v :: boardIds l := rfl

/-- When a `free` comprehension produces a single cell, that cell reads
as unoccupied on the board. -/
theorem freeCellsRead_singleton {b : Board} {m : Move} {c : Nat}
    (h : freeCellsRead b m = some [c]) : b[c]? = some none := by
  rw [freeCellsRead] at h
  cases h1 : b[m.cells.1]? with
  | none =>
    rw [h1] at h
    cases h2 : b[m.cells.2]? <;> rw [h2] at h <;> exact Option.noConfusion h
  | some v1 =>
    cases h2 : b[m.cells.2]? with
    | none => rw [h1, h2] at h; exact Option.noConfusion h
    | some v2 =>
      rw [h1, h2] at h
      dsimp only at h
      cases v1 with
      | none =>
        cases v2 with
        | none => simp at h
        | some w =>
          simp at h
          exact h ▸ h1
      | some w =>
        cases v2 with
        | none =>
          simp at h
          exact h ▸ h2
        | some w2 => simp at h

/-- Writing a fresh identity onto an unoccupied square permutes the
board identities by inserting the new one. -/
theorem boardIds_set_perm {b : Board} {c : Nat} {v : Player × Nat}
    (h : b[c]? = some none) :
    List.Perm (boardIds (b.set c (some v))) (v :: boardIds b) := by
  induction b generalizing c with
  | nil => simp at h
  | cons x xs ih =>
    cases c with
    | zero =>
      rw [List.getElem?_cons_zero] at h
      injection h with h
      subst h
      simp only [List.set_cons_zero, boardIds_cons_some, boardIds_cons_none]
      exact List.Perm.refl _
    | succ c =>
      rw [List.getElem?_cons_succ] at h
      rw [List.set_cons_succ]
      cases x with
      | none =>
        rw [boardIds_cons_none, boardIds_cons_none]
        exact ih h
      | some a =>
        rw [boardIds_cons_some, boardIds_cons_some]
        exact ((ih h).cons a).trans (List.Perm.swap v a _)

/-- The combined accounting of one propagation pass: cores, board
length and occupied squares are preserved, unresolved moves never
increase (and strictly decrease on a changing pass), an unchanged pass
returns its input, and the multiset of pending-or-placed identities is
preserved. -/
theorem scanOnce_spec :
    ∀ {ms : List Move} {b : Board} {ms2 b2 ch},
      scanOnce ms b = some (ms2, b2, ch) →
      ms2.map moveCore = ms.map moveCore ∧
      b2.length = b.length ∧
      (∀ (c : Nat) (v : Player × Nat), b[c]? = some (some v) → b2[c]? = some (some v)) ∧
      unresolvedCount ms2 ≤ unresolvedCount ms ∧
      (ch = true → unresolvedCount ms2 < unresolvedCount ms) ∧
      (ch = false → ms2 = ms ∧ b2 = b) ∧
      List.Perm (unresolvedIds ms2 ++ boardIds b2) (unresolvedIds ms ++ boardIds b) := by
  intro ms
  induction ms with
  | nil =>
    intro b ms2 b2 ch h
    rw [scanOnce] at h
    injection h with h
    injection h with h1 h
    injection h with h2 h3
    subst h1; subst h2; subst h3
    exact ⟨rfl, rfl, fun c v hv => hv, le_rfl, by simp, fun _ => ⟨rfl, rfl⟩, List.Perm.refl _⟩
  | cons m rest ih =>
    intro b ms2 b2 ch h
    rw [scanOnce] at h
    cases hct : m.collapsed_to with
    | some c0 =>
      rw [hct] at h
      dsimp only at h
      cases hrec : scanOnce rest b with
      | none => rw [hrec] at h; exact Option.noConfusion h
      | some t =>
        obtain ⟨rs, b3, ch3⟩ := t
        rw [hrec] at h
        dsimp only at h
        injection h with h
        injection h with h1 h
        injection h with h2 h3
        subst h1; subst h2; subst h3
        obtain ⟨i1, i2, i3, i4, i5, i6, i7⟩ := ih hrec
        have hres : ¬ m.collapsed_to.isNone := by rw [hct]; simp
        refine ⟨by simp [i1], i2, i3, ?_, ?_, ?_, ?_⟩
        · rw [unresolvedCount_cons, unresolvedCount_cons]; omega
        · intro hch
          rw [unresolvedCount_cons, unresolvedCount_cons]
          have := i5 hch
          omega
        · intro hch
          obtain ⟨e1, e2⟩ := i6 hch
          exact ⟨by rw [e1], e2⟩
        · rw [unresolvedIds_cons_resolved hres, unresolvedIds_cons_resolved hres]
          exact i7
    | none =>
      rw [hct] at h
      dsimp only at h
      have hunr : m.collapsed_to.isNone := by rw [hct]; simp
      cases hfr : freeCellsRead b m with
      | none => rw [hfr] at h; exact Option.noConfusion h
      | some free =>
        rw [hfr] at h
        cases free with
        | nil =>
          dsimp only at h
          cases hrec : scanOnce rest b with
          | none => rw [hrec] at h; exact Option.noConfusion h
          | some t =>
            obtain ⟨rs, b3, ch3⟩ := t
            rw [hrec] at h
            dsimp only at h
            injection h with h
            injection h with h1 h
            injection h with h2 h3
            subst h1; subst h2; subst h3
            obtain ⟨i1, i2, i3, i4, i5, i6, i7⟩ := ih hrec
            refine ⟨by simp [i1], i2, i3, ?_, ?_, ?_, ?_⟩
            · rw [unresolvedCount_cons, unresolvedCount_cons]; omega
            · intro hch
              rw [unresolvedCount_cons, unresolvedCount_cons]
              have := i5 hch
              omega
            · intro hch
              obtain ⟨e1, e2⟩ := i6 hch
              exact ⟨by rw [e1], e2⟩
            · rw [unresolvedIds_cons_unresolved hunr, unresolvedIds_cons_unresolved hunr]
              exact (i7.cons (moveId m))
        | cons c cs =>
          cases cs with
          | nil =>
            dsimp only at h
            have hfree : b[c]? = some none := freeCellsRead_singleton hfr
            cases hrec : scanOnce rest (b.set c (some (m.player, m.index))) with
            | none => rw [hrec] at h; exact Option.noConfusion h
            | some t =>
              obtain ⟨rs, b3, ch3⟩ := t
              rw [hrec] at h
              dsimp only at h
              injection h with h
              injection h with h1 h
              injection h with h2 h3
              subst h1; subst h2; subst h3
              obtain ⟨i1, i2, i3, i4, i5, i6, i7⟩ := ih hrec
              have hresolved : ¬ (Move.collapsed_to { m with collapsed_to := some c }).isNone := by
                simp
              refine ⟨by simpa [moveCore] using i1, by rw [i2, List.length_set], ?_, ?_, ?_, ?_, ?_⟩
              · intro c2 v hv
                have hne : c ≠ c2 := by
                  intro he
                  rw [he] at hfree
                  rw [hfree] at hv
                  injection hv with hv
                  exact Option.noConfusion hv
                refine i3 c2 v ?_
                rw [List.getElem?_set_ne hne]
                exact hv
              · rw [unresolvedCount_cons_resolved hresolved,
                  unresolvedCount_cons_unresolved hunr]
                omega
              · intro _
                rw [unresolvedCount_cons_resolved hresolved,
                  unresolvedCount_cons_unresolved hunr]
                omega
              · intro hch
                exact absurd hch (by simp)
              · rw [unresolvedIds_cons_resolved hresolved,
                  unresolvedIds_cons_unresolved hunr]
                refine i7.trans ?_
                refine (List.Perm.append_left (unresolvedIds rest)
                  (boardIds_set_perm hfree)).trans ?_
                exact List.perm_middle
          | cons c2 cs2 =>
            dsimp only at h
            cases hrec : scanOnce rest b with
            | none => rw [hrec] at h; exact Option.noConfusion h
            | some t =>
              obtain ⟨rs, b3, ch3⟩ := t
              rw [hrec] at h
              dsimp only at h
              injection h with h
              injection h with h1 h
              injection h with h2 h3
              subst h1; subst h2; subst h3
              obtain ⟨i1, i2, i3, i4, i5, i6, i7⟩ := ih hrec
              refine ⟨by simp [i1], i2, i3, ?_, ?_, ?_, ?_⟩
              · rw [unresolvedCount_cons, unresolvedCount_cons]; omega
              · intro hch
                rw [unresolvedCount_cons, unresolvedCount_cons]
                have := i5 hch
                omega
              · intro hch
                obtain ⟨e1, e2⟩ := i6 hch
                exact ⟨by rw [e1], e2⟩
              · rw [unresolvedIds_cons_unresolved hunr, unresolvedIds_cons_unresolved hunr]
                exact (i7.cons (moveId m))

/-- `propagate` preserves cores, board length, occupied squares and the
multiset of pending-or-placed identities. -/
theorem propagate_spec :
    ∀ (fuel : Nat) {ms : List Move} {b : Board} {ms2 b2},
      propagate fuel ms b = some (ms2, b2) →
      ms2.map moveCore = ms.map moveCore ∧
      b2.length = b.length ∧
      (∀ (c : Nat) (v : Player × Nat), b[c]? = some (some v) → b2[c]? = some (some v)) ∧
      List.Perm (unresolvedIds ms2 ++ boardIds b2) (unresolvedIds ms ++ boardIds b) := by
  intro fuel
  induction fuel with
  | zero =>
    intro ms b ms2 b2 h
    rw [propagate] at h
    injection h with h
    injection h with h1 h2
    subst h1; subst h2
    exact ⟨rfl, rfl, fun c v hv => hv, List.Perm.refl _⟩
  | succ fuel ih =>
    intro ms b ms2 b2 h
    rw [propagate] at h
    cases hscan : scanOnce ms b with
    | none => rw [hscan] at h; exact Option.noConfusion h
    | some t =>
      obtain ⟨ms3, b3, ch⟩ := t
      rw [hscan] at h
      dsimp only at h
      obtain ⟨s1, s2, s3, _, _, _, s7⟩ := scanOnce_spec hscan
      cases ch with
      | true =>
        rw [if_pos rfl] at h
        obtain ⟨p1, p2, p3, p4⟩ := ih h
        exact ⟨p1.trans s1, p2.trans s2, fun c v hv => p3 c v (s3 c v hv), p4.trans s7⟩
      | false =>
        rw [if_neg (by simp)] at h
        injection h with h
        injection h with h1 h2
        subst h1; subst h2
        exact ⟨rfl, rfl, fun c v hv => hv, List.Perm.refl _⟩

/-- With fuel exceeding the number of unresolved moves, `propagate`
reaches the state the `while changed:` loop of the source exits in:
one more scan pass reports no change and returns the state unchanged. -/
theorem propagate_fixpoint :
    ∀ (fuel : Nat) {ms : List Move} {b : Board} {ms2 b2},
      unresolvedCount ms < fuel →
      propagate fuel ms b = some (ms2, b2) →
      scanOnce ms2 b2 = some (ms2, b2, false) := by
  intro fuel
  induction fuel with
  | zero => intro ms b ms2 b2 hlt; omega
  | succ fuel ih =>
    intro ms b ms2 b2 hlt h
    rw [propagate] at h
    cases hscan : scanOnce ms b with
    | none => rw [hscan] at h; exact Option.noConfusion h
    | some t =>
      obtain ⟨ms3, b3, ch⟩ := t
      rw [hscan] at h
      dsimp only at h
      cases ch with
      | true =>
        rw [if_pos rfl] at h
        have hdec := (scanOnce_spec hscan).2.2.2.2.1 rfl
        exact ih (by omega) h
      | false =>
        rw [if_neg (by simp)] at h
        injection h with h
        injection h with h1 h2
        subst h1; subst h2
        obtain ⟨e1, e2⟩ := (scanOnce_spec hscan).2.2.2.2.2.1 rfl
        rw [e1, e2] at hscan
        exact hscan

/-- A scan pass over moves whose cells address the board never raises. -/
theorem scanOnce_total :
    ∀ {ms : List Move} {b : Board},
      (∀ m ∈ ms, m.cells.1 < b.length ∧ m.cells.2 < b.length) →
      ∃ r, scanOnce ms b = some r := by
  intro ms
  induction ms with
  | nil => intro b _; exact ⟨([], b, false), rfl⟩
  | cons m rest ih =>
    intro b hrange
    rw [scanOnce]
    cases hct : m.collapsed_to with
    | some c0 =>
      dsimp only
      obtain ⟨r, hr⟩ := ih (fun m2 hm2 => hrange m2 (List.mem_cons_of_mem _ hm2))
      obtain ⟨rs, b3, ch⟩ := r
      rw [hr]
      exact ⟨(m :: rs, b3, ch), rfl⟩
    | none =>
      dsimp only
      obtain ⟨h1, h2⟩ := hrange m (List.mem_cons_self _ _)
      have hv1 : b[m.cells.1]? = some b[m.cells.1] := List.getElem?_eq_getElem h1
      have hv2 : b[m.cells.2]? = some b[m.cells.2] := List.getElem?_eq_getElem h2
      rw [freeCellsRead, hv1, hv2]
      dsimp only
      set free : List Nat :=
        (if b[m.cells.1] = none then [m.cells.1] else []) ++
        (if b[m.cells.2] = none then [m.cells.2] else []) with hfree
      have hrange2 : ∀ (c : Nat), ∀ m2 ∈ rest,
          m2.cells.1 < (b.set c (some (m.player, m.index))).length ∧
          m2.cells.2 < (b.set c (some (m.player, m.index))).length := by
        intro c m2 hm2
        rw [List.length_set]
        exact hrange m2 (List.mem_cons_of_mem _ hm2)
      match free with
      | [] =>
        dsimp only
        obtain ⟨r, hr⟩ := ih (fun m2 hm2 => hrange m2 (List.mem_cons_of_mem _ hm2))
        obtain ⟨rs, b3, ch⟩ := r
        rw [hr]
        exact ⟨(m :: rs, b3, ch), rfl⟩
      | [c] =>
        dsimp only
        obtain ⟨r, hr⟩ := ih (hrange2 c)
        obtain ⟨rs, b3, ch⟩ := r
        rw [hr]
        exact ⟨({ m with collapsed_to := some c } :: rs, b3, true), rfl⟩
      | c1 :: c2 :: cs =>
        dsimp only
        obtain ⟨r, hr⟩ := ih (fun m2 hm2 => hrange m2 (List.mem_cons_of_mem _ hm2))
        obtain ⟨rs, b3, ch⟩ := r
        rw [hr]
        exact ⟨(m :: rs, b3, ch), rfl⟩

/-- `propagate` over moves whose cells address the board never raises. -/
theorem propagate_total :
    ∀ (fuel : Nat) {ms : List Move} {b : Board},
      (∀ m ∈ ms, m.cells.1 < b.length ∧ m.cells.2 < b.length) →
      ∃ r, propagate fuel ms b = some r := by
  intro fuel
  induction fuel with
  | zero => intro ms b _; exact ⟨(ms, b), rfl⟩
  | succ fuel ih =>
    intro ms b hrange
    rw [propagate]
    obtain ⟨⟨ms3, b3, ch⟩, hscan⟩ := scanOnce_total hrange
    rw [hscan]
    dsimp only
    cases ch with
    | true =>
      rw [if_pos rfl]
      obtain ⟨s1, s2, _, _⟩ := scanOnce_spec hscan
      refine ih ?_
      intro m3 hm3
      have : moveCore m3 ∈ ms3.map moveCore := List.mem_map_of_mem _ hm3
      rw [s1] at this
      obtain ⟨m0, hm0, hcore⟩ := List.mem_map.mp this
      have hc : m3.cells = m0.cells := by
        have := congrArg (fun t => t.2.2) hcore
        simpa [moveCore] using this.symm
      rw [s2, hc]
      exact hrange m0 hm0
    | false =>
      rw [if_neg (by simp)]
      exact ⟨(ms, b), rfl⟩

/-- The cursor-advance loop stops at the end of the list or at the
first unresolved move, and never moves backwards. -/
theorem advanceFrom_spec (ms : List Move) :
    ∀ (fuel i : Nat), ms.length - i ≤ fuel →
      i ≤ advanceFrom ms fuel i ∧
      (ms.length ≤ advanceFrom ms fuel i ∨
        ∃ h : advanceFrom ms fuel i < ms.length,
          (ms.get ⟨advanceFrom ms fuel i, h⟩).collapsed_to = none) := by
  intro fuel
  induction fuel with
  | zero =>
    intro i hk
    rw [advanceFrom]
    exact ⟨le_rfl, Or.inl (by omega)⟩
  | succ k ih =>
    intro i hk
    rw [advanceFrom]
    by_cases hlt : i < ms.length
    · rw [dif_pos hlt]
      cases hres : (ms.get ⟨i, hlt⟩).collapsed_to with
      | some c0 =>
        rw [if_pos (by simp)]
        obtain ⟨ha, hb⟩ := ih (i + 1) (by omega)
        exact ⟨by omega, hb⟩
      | none =>
        rw [if_neg (by simp)]
        exact ⟨le_rfl, Or.inr ⟨hlt, hres⟩⟩
    · rw [dif_neg hlt]
      exact ⟨le_rfl, Or.inl (by omega)⟩

theorem advanceCursor_spec (ms : List Move) (i : Nat) :
    i ≤ advanceCursor ms i ∧
      (ms.length ≤ advanceCursor ms i ∨
        ∃ h : advanceCursor ms i < ms.length,
          (ms.get ⟨advanceCursor ms i, h⟩).collapsed_to = none) :=
  advanceFrom_spec ms (ms.length - i) i le_rfl

/-! ### Shape of `collapse_step` -/

theorem unresolvedCount_le_length (ms : List Move) : unresolvedCount ms ≤ ms.length :=
  List.length_filter_le _ _

/-- An accepted selection: resolve the cursor move to the chosen cell,
mark the board, propagate, and finish. -/
theorem collapse_step_accepted_eq (st : GameState) (s : Nat)
    (hmode : st.mode = Mode.COLLAPSE)
    (hcur : st.collapse_index < st.collapse_moves.length)
    (hcell : s = (st.collapse_moves.get ⟨st.collapse_index, hcur⟩).cells.1 ∨
             s = (st.collapse_moves.get ⟨st.collapse_index, hcur⟩).cells.2)
    (hfree : st.collapsed_board[s]? = some none) :
    collapse_step st s =
      (propagate
        ((st.collapse_moves.set st.collapse_index
          { st.collapse_moves.get ⟨st.collapse_index, hcur⟩ with collapsed_to := some s }).length + 1)
        (st.collapse_moves.set st.collapse_index
          { st.collapse_moves.get ⟨st.collapse_index, hcur⟩ with collapsed_to := some s })
        (st.collapsed_board.set s
          (some ((st.collapse_moves.get ⟨st.collapse_index, hcur⟩).player,
                 (st.collapse_moves.get ⟨st.collapse_index, hcur⟩).index)))).map
        (fun t => (finishStep st t.1 t.2, true)) := by
  rw [collapse_step, if_pos hmode, dif_pos hcur]
  dsimp only
  rw [if_pos hcell, hfree]
  dsimp only
  cases propagate
      ((st.collapse_moves.set st.collapse_index
        { st.collapse_moves.get ⟨st.collapse_index, hcur⟩ with collapsed_to := some s }).length + 1)
      (st.collapse_moves.set st.collapse_index
        { st.collapse_moves.get ⟨st.collapse_index, hcur⟩ with collapsed_to := some s })
      (st.collapsed_board.set s
        (some ((st.collapse_moves.get ⟨st.collapse_index, hcur⟩).player,
               (st.collapse_moves.get ⟨st.collapse_index, hcur⟩).index))) with
  | none => rfl
  | some t => obtain ⟨cms2, bd2⟩ := t; rfl

/-- In `COLLAPSE` mode, a cursor already past the end makes
`collapse_step` return `true` with the state unchanged; choosing a
square that is not one of the current move's two cells, or one already
occupied on the classical board, returns `false` with the state
unchanged. -/
theorem collapse_step_rejects (st : GameState) (s : Nat)
    (hmode : st.mode = Mode.COLLAPSE) :
    (st.collapse_moves.length ≤ st.collapse_index →
      collapse_step st s = some (st, true)) ∧
    (∀ hcur : st.collapse_index < st.collapse_moves.length,
      (s ≠ (st.collapse_moves.get ⟨st.collapse_index, hcur⟩).cells.1 ∧
       s ≠ (st.collapse_moves.get ⟨st.collapse_index, hcur⟩).cells.2) →
      collapse_step st s = some (st, false)) ∧
    (∀ hcur : st.collapse_index < st.collapse_moves.length,
      ∀ v : Player × Nat,
      (s = (st.collapse_moves.get ⟨st.collapse_index, hcur⟩).cells.1 ∨
       s = (st.collapse_moves.get ⟨st.collapse_index, hcur⟩).cells.2) →
      st.collapsed_board[s]? = some (some v) →
      collapse_step st s = some (st, false)) := by
  refine ⟨?_, ?_, ?_⟩
  · intro hend
    rw [collapse_step, if_pos hmode, dif_neg (by omega)]
  · intro hcur hne
    rw [collapse_step, if_pos hmode, dif_pos hcur]
    dsimp only
    rw [if_neg (by push_neg; exact hne)]
  · intro hcur v hcell hocc
    rw [collapse_step, if_pos hmode, dif_pos hcur]
    dsimp only
    rw [if_pos hcell, hocc]

/-- A state whose collapse cursor is already past the end of the
implicated list. -/
def pastEndState : GameState :=
  { resetState with mode := Mode.COLLAPSE }

/-- Claim C1 (counterexample): with the cursor past the end of the
implicated list, `collapse_step` returns `true`, not `false` as the
claim demands (the state is indeed unchanged). -/
theorem collapse_step_past_end_cex :
    collapse_step pastEndState 3 = some (pastEndState, true) := rfl

/-- Witness for the amended claim C1 at a concrete episode: a square
belonging to neither cell of the current move is rejected with `false`
and no state change. -/
def oneMoveEpisode : GameState :=
  { resetState with
    mode := Mode.COLLAPSE
    collapse_moves := [{ player := Player.X, index := 1, cells := (0, 1) }]
    collapse_index := 0
    next_player_after_collapse := some Player.O
    collapse_chooser := some Player.O
    cycle_creator := some Player.X }

/-- Claim C1 (amended): in `COLLAPSE` mode, a cursor already past the
end makes `collapse_step` return `true` — not `false` — with the state
unchanged; choosing a square that is not one of the current move's two
cells, or one already occupied on the classical board, returns `false`
with the state unchanged. -/
theorem collapse_step_rejection_spec (st : GameState) (s : Nat)
    (hmode : st.mode = Mode.COLLAPSE) :
    (st.collapse_moves.length ≤ st.collapse_index →
      collapse_step st s = some (st, true)) ∧
    (∀ hcur : st.collapse_index < st.collapse_moves.length,
      (s ≠ (st.collapse_moves.get ⟨st.collapse_index, hcur⟩).cells.1 ∧
       s ≠ (st.collapse_moves.get ⟨st.collapse_index, hcur⟩).cells.2) →
      collapse_step st s = some (st, false)) ∧
    (∀ hcur : st.collapse_index < st.collapse_moves.length,
      ∀ v : Player × Nat,
      (s = (st.collapse_moves.get ⟨st.collapse_index, hcur⟩).cells.1 ∨
       s = (st.collapse_moves.get ⟨st.collapse_index, hcur⟩).cells.2) →
      st.collapsed_board[s]? = some (some v) →
      collapse_step st s = some (st, false)) :=
  collapse_step_rejects st s hmode

theorem collapse_step_rejection_spec_witness :
    collapse_step oneMoveEpisode 5 = some (oneMoveEpisode, false) :=
  (collapse_step_rejection_spec oneMoveEpisode 5 rfl).2.1 (by decide) (by decide)

/-- No unresolved move of a scan-stable configuration has exactly one
free cell left. -/
theorem scanOnce_stable_no_forced :
    ∀ {ms : List Move} {b : Board},
      scanOnce ms b = some (ms, b, false) →
      ∀ m ∈ ms, m.collapsed_to = none → ∀ c : Nat, freeCellsRead b m ≠ some [c] := by
  intro ms
  induction ms with
  | nil => intro b _ m hm; simp at hm
  | cons m0 rest ih =>
    intro b h m hm hunr c hfr
    rw [scanOnce] at h
    cases hct : m0.collapsed_to with
    | some c0 =>
      rw [hct] at h
      dsimp only at h
      cases hrec : scanOnce rest b with
      | none => rw [hrec] at h; exact Option.noConfusion h
      | some t =>
        obtain ⟨rs, b3, ch3⟩ := t
        rw [hrec] at h
        dsimp only at h
        injection h with h
        injection h with h1 h
        injection h with h2 h3
        injection h1 with h1a h1b
        subst h1b; subst h2; subst h3
        rcases List.mem_cons.mp hm with he | he
        · rw [he] at hunr
          rw [hunr] at hct
          exact Option.noConfusion hct
        · exact ih hrec m he hunr c hfr
    | none =>
      rw [hct] at h
      dsimp only at h
      cases hfr0 : freeCellsRead b m0 with
      | none => rw [hfr0] at h; exact Option.noConfusion h
      | some free =>
        rw [hfr0] at h
        cases free with
        | nil =>
          dsimp only at h
          cases hrec : scanOnce rest b with
          | none => rw [hrec] at h; exact Option.noConfusion h
          | some t =>
            obtain ⟨rs, b3, ch3⟩ := t
            rw [hrec] at h
            dsimp only at h
            injection h with h
            injection h with h1 h
            injection h with h2 h3
            injection h1 with h1a h1b
            subst h1b; subst h2; subst h3
            rcases List.mem_cons.mp hm with he | he
            · rw [he] at hfr
              rw [hfr0] at hfr
              injection hfr with hfr
              exact List.noConfusion hfr
            · exact ih hrec m he hunr c hfr
        | cons d ds =>
          cases ds with
          | nil =>
            dsimp only at h
            cases hrec : scanOnce rest (b.set d (some (m0.player, m0.index))) with
            | none => rw [hrec] at h; exact Option.noConfusion h
            | some t =>
              obtain ⟨rs, b3, ch3⟩ := t
              rw [hrec] at h
              dsimp only at h
              injection h with h
              injection h with h1 h
              injection h with h2 h3
              exact Bool.noConfusion h3
          | cons d2 ds2 =>
            dsimp only at h
            cases hrec : scanOnce rest b with
            | none => rw [hrec] at h; exact Option.noConfusion h
            | some t =>
              obtain ⟨rs, b3, ch3⟩ := t
              rw [hrec] at h
              dsimp only at h
              injection h with h
              injection h with h1 h
              injection h with h2 h3
              injection h1 with h1a h1b
              subst h1b; subst h2; subst h3
              rcases List.mem_cons.mp hm with he | he
              · rw [he] at hfr
                rw [hfr0] at hfr
                injection hfr with hfr
                injection hfr with hfra hfrb
                exact List.noConfusion hfrb
              · exact ih hrec m he hunr c hfr

theorem finishStep_moves (st : GameState) (cms2 : List Move) (bd2 : Board) :
    (finishStep st cms2 bd2).collapse_moves = cms2 := by
  rw [finishStep]
  split_ifs <;> rfl

theorem finishStep_board (st : GameState) (cms2 : List Move) (bd2 : Board) :
    (finishStep st cms2 bd2).collapsed_board = bd2 := by
  rw [finishStep]
  split_ifs <;> rfl

/-- Claim C4: after an accepted collapse selection, the forced
propagation run inside `collapse_step` has reached a fixpoint: one more
scan pass changes nothing (it returns the final moves and board with
the `changed` flag false), so no still-unresolved implicated move is
left with exactly one unoccupied cell; cascades therefore complete
within the single call. -/
theorem collapse_step_propagation_fixpoint (st : GameState) (s : Nat)
    (st2 : GameState) (r : Bool)
    (hmode : st.mode = Mode.COLLAPSE)
    (hcur : st.collapse_index < st.collapse_moves.length)
    (hcell : s = (st.collapse_moves.get ⟨st.collapse_index, hcur⟩).cells.1 ∨
             s = (st.collapse_moves.get ⟨st.collapse_index, hcur⟩).cells.2)
    (hfree : st.collapsed_board[s]? = some none)
    (hstep : collapse_step st s = some (st2, r)) :
    scanOnce st2.collapse_moves st2.collapsed_board =
      some (st2.collapse_moves, st2.collapsed_board, false) ∧
    (∀ m ∈ st2.collapse_moves, m.collapsed_to = none →
      ∀ c : Nat, freeCellsRead st2.collapsed_board m ≠ some [c]) := by
  rw [collapse_step_accepted_eq st s hmode hcur hcell hfree] at hstep
  cases hp : propagate
      ((st.collapse_moves.set st.collapse_index
        { st.collapse_moves.get ⟨st.collapse_index, hcur⟩ with collapsed_to := some s }).length + 1)
      (st.collapse_moves.set st.collapse_index
        { st.collapse_moves.get ⟨st.collapse_index, hcur⟩ with collapsed_to := some s })
      (st.collapsed_board.set s
        (some ((st.collapse_moves.get ⟨st.collapse_index, hcur⟩).player,
               (st.collapse_moves.get ⟨st.collapse_index, hcur⟩).index))) with
  | none => rw [hp] at hstep; exact Option.noConfusion hstep
  | some t =>
    obtain ⟨cms2, bd2⟩ := t
    rw [hp] at hstep
    dsimp only [Option.map] at hstep
    injection hstep with hstep
    injection hstep with h1 h2
    have hfix := propagate_fixpoint _ (by
      have := unresolvedCount_le_length
        (st.collapse_moves.set st.collapse_index
          { st.collapse_moves.get ⟨st.collapse_index, hcur⟩ with collapsed_to := some s })
      omega) hp
    have hms : st2.collapse_moves = cms2 := by rw [← h1, finishStep_moves]
    have hbd : st2.collapsed_board = bd2 := by rw [← h1, finishStep_board]
    rw [hms, hbd]
    exact ⟨hfix, scanOnce_stable_no_forced hfix⟩

/-- A concrete collapse episode with two implicated moves sharing
square 1. -/
def twoMoveEpisode : GameState :=
  { resetState with
    mode := Mode.COLLAPSE
    collapse_moves :=
      [{ player := Player.X, index := 1, cells := (0, 1) },
       { player := Player.O, index := 1, cells := (1, 2) }]
    collapse_index := 0
    next_player_after_collapse := some Player.O
    collapse_chooser := some Player.O
    cycle_creator := some Player.X }

/-- The state `collapse_step twoMoveEpisode 1` produces: `X1` resolved
to square 1 by the chooser; `O1` forced onto square 2 by propagation in
the same call; the episode over. -/
def twoMoveEpisodeResult : GameState :=
  { twoMoveEpisode with
    mode := Mode.PLAY
    current_player := Player.O
    collapse_index := 2
    collapse_moves :=
      [{ player := Player.X, index := 1, cells := (0, 1), collapsed_to := some 1 },
       { player := Player.O, index := 1, cells := (1, 2), collapsed_to := some 2 }]
    collapsed_board :=
      [none, some (Player.X, 1), some (Player.O, 1),
       none, none, none, none, none, none] }

theorem collapse_step_propagation_fixpoint_witness :
    scanOnce twoMoveEpisodeResult.collapse_moves twoMoveEpisodeResult.collapsed_board =
      some (twoMoveEpisodeResult.collapse_moves, twoMoveEpisodeResult.collapsed_board, false) :=
  (collapse_step_propagation_fixpoint twoMoveEpisode 1 twoMoveEpisodeResult true
    rfl (by decide) (by decide) (by decide) (by rfl)).1

/-! ### Shape of `add_spooky_move` and the finishing step -/

theorem add_spooky_move_noloop_eq (st : GameState) (c1 c2 : Nat)
    (hmode : st.mode = Mode.PLAY) (hne : c1 ≠ c2)
    (hloop : would_create_loop st.moves (c1, c2) = false) :
    add_spooky_move st c1 c2 = some { st with
      move_counter := bumpCounter st
      moves := st.moves ++ [newMove st c1 c2]
      current_player := other_player st.current_player } := by
  rw [add_spooky_move, if_pos ⟨hmode, hne⟩]
  dsimp only
  rw [hloop]
  rfl

theorem add_spooky_move_loop_eq (st : GameState) (c1 c2 : Nat)
    (hmode : st.mode = Mode.PLAY) (hne : c1 ≠ c2)
    (hloop : would_create_loop st.moves (c1, c2) = true) :
    add_spooky_move st c1 c2 = some { st with
      move_counter := bumpCounter st
      cycle_creator := some st.current_player
      collapse_chooser := some (other_player st.current_player)
      next_player_after_collapse := some (other_player st.current_player)
      moves := (st.moves ++ [newMove st c1 c2]).filter
        (fun m => decide (m.cells.1 ∉
          get_connected_component (st.moves ++ [newMove st c1 c2]) c1))
      collapse_moves := (st.moves ++ [newMove st c1 c2]).filter
        (fun m => decide (m.cells.1 ∈
          get_connected_component (st.moves ++ [newMove st c1 c2]) c1))
      mode := Mode.COLLAPSE
      collapse_index := ((st.moves ++ [newMove st c1 c2]).filter
        (fun m => decide (m.cells.1 ∈
          get_connected_component (st.moves ++ [newMove st c1 c2]) c1))).length - 1 } := by
  rw [add_spooky_move, if_pos ⟨hmode, hne⟩]
  dsimp only
  rw [hloop]
  rfl

theorem other_player_ne (p : Player) : other_player p ≠ p := by
  cases p <;> decide

theorem finishStep_collapse_index (st : GameState) (cms2 : List Move) (bd2 : Board) :
    (finishStep st cms2 bd2).collapse_index = advanceCursor cms2 st.collapse_index := by
  rw [finishStep]
  split_ifs <;> rfl

theorem finishStep_preserved (st : GameState) (cms2 : List Move) (bd2 : Board) :
    (finishStep st cms2 bd2).next_player_after_collapse = st.next_player_after_collapse ∧
    (finishStep st cms2 bd2).collapse_chooser = st.collapse_chooser ∧
    (finishStep st cms2 bd2).cycle_creator = st.cycle_creator ∧
    (finishStep st cms2 bd2).moves = st.moves ∧
    (finishStep st cms2 bd2).move_counter = st.move_counter := by
  rw [finishStep]
  split_ifs <;> exact ⟨rfl, rfl, rfl, rfl, rfl⟩

theorem finishStep_end (st : GameState) (cms2 : List Move) (bd2 : Board)
    (h : cms2.length ≤ advanceCursor cms2 st.collapse_index) :
    (finishStep st cms2 bd2).mode = Mode.PLAY ∧
    (finishStep st cms2 bd2).current_player =
      (match st.next_player_after_collapse with
       | some p => p
       | none => st.current_player) := by
  rw [finishStep]
  rw [if_pos h]
  exact ⟨rfl, rfl⟩

theorem finishStep_not_end (st : GameState) (cms2 : List Move) (bd2 : Board)
    (h : ¬ cms2.length ≤ advanceCursor cms2 st.collapse_index) :
    (finishStep st cms2 bd2).mode = st.mode ∧
    (finishStep st cms2 bd2).current_player = st.current_player := by
  rw [finishStep]
  rw [if_neg h]
  exact ⟨rfl, rfl⟩

/-- Every successful `collapse_step` with the cursor in range either
rejects the square (state unchanged, result `false`) or accepts it:
the cursor move resolves to the square, propagation runs, and the
finishing step produces the state (result `true`). -/
theorem collapse_step_some_cases (st : GameState) (s : Nat) (st2 : GameState) (r : Bool)
    (hmode : st.mode = Mode.COLLAPSE)
    (hcur : st.collapse_index < st.collapse_moves.length)
    (hstep : collapse_step st s = some (st2, r)) :
    (st2 = st ∧ r = false) ∨
    (r = true ∧
      (s = (st.collapse_moves.get ⟨st.collapse_index, hcur⟩).cells.1 ∨
       s = (st.collapse_moves.get ⟨st.collapse_index, hcur⟩).cells.2) ∧
      st.collapsed_board[s]? = some none ∧
      ∃ cms2 bd2,
        propagate
          ((st.collapse_moves.set st.collapse_index
            { st.collapse_moves.get ⟨st.collapse_index, hcur⟩ with collapsed_to := some s }).length + 1)
          (st.collapse_moves.set st.collapse_index
            { st.collapse_moves.get ⟨st.collapse_index, hcur⟩ with collapsed_to := some s })
          (st.collapsed_board.set s
            (some ((st.collapse_moves.get ⟨st.collapse_index, hcur⟩).player,
                   (st.collapse_moves.get ⟨st.collapse_index, hcur⟩).index))) = some (cms2, bd2) ∧
        st2 = finishStep st cms2 bd2) := by
  by_cases hcell : s = (st.collapse_moves.get ⟨st.collapse_index, hcur⟩).cells.1 ∨
      s = (st.collapse_moves.get ⟨st.collapse_index, hcur⟩).cells.2
  · cases hbd : st.collapsed_board[s]? with
    | none =>
      rw [collapse_step, if_pos hmode, dif_pos hcur] at hstep
      dsimp only at hstep
      rw [if_pos hcell, hbd] at hstep
      exact Option.noConfusion hstep
    | some w =>
      cases w with
      | some v =>
        have := (collapse_step_rejects st s hmode).2.2 hcur v hcell hbd
        rw [this] at hstep
        injection hstep with hstep
        injection hstep with h1 h2
        exact Or.inl ⟨h1.symm, h2.symm⟩
      | none =>
        rw [collapse_step_accepted_eq st s hmode hcur hcell hbd] at hstep
        cases hp : propagate
            ((st.collapse_moves.set st.collapse_index
              { st.collapse_moves.get ⟨st.collapse_index, hcur⟩ with collapsed_to := some s }).length + 1)
            (st.collapse_moves.set st.collapse_index
              { st.collapse_moves.get ⟨st.collapse_index, hcur⟩ with collapsed_to := some s })
            (st.collapsed_board.set s
              (some ((st.collapse_moves.get ⟨st.collapse_index, hcur⟩).player,
                     (st.collapse_moves.get ⟨st.collapse_index, hcur⟩).index))) with
        | none => rw [hp] at hstep; exact Option.noConfusion hstep
        | some t =>
          obtain ⟨cms2, bd2⟩ := t
          rw [hp] at hstep
          dsimp only [Option.map] at hstep
          injection hstep with hstep
          injection hstep with h1 h2
          exact Or.inr ⟨h2.symm, hcell, rfl, cms2, bd2, rfl, h1.symm⟩
  · have := (collapse_step_rejects st s hmode).2.1 hcur (by push_neg at hcell; exact hcell)
    rw [this] at hstep
    injection hstep with hstep
    injection hstep with h1 h2
    exact Or.inl ⟨h1.symm, h2.symm⟩

/-- Claim C6: at episode creation the recorded chooser is the player
other than the cycle creator (and the resuming player equals the
chooser); whenever a `collapse_step` on a live episode leaves the
cursor at or past the end of the implicated list, the mode is back to
`PLAY` and the current player is the recorded resuming player — the
chooser, never the cycle creator. -/
theorem collapse_episode_chooser_spec :
    (∀ (st : GameState) (c1 c2 : Nat) (st2 : GameState),
      st.mode = Mode.PLAY → c1 ≠ c2 →
      would_create_loop st.moves (c1, c2) = true →
      add_spooky_move st c1 c2 = some st2 →
      st2.cycle_creator = some st.current_player ∧
      st2.collapse_chooser = some (other_player st.current_player) ∧
      st2.next_player_after_collapse = st2.collapse_chooser ∧
      st2.collapse_chooser ≠ st2.cycle_creator) ∧
    (∀ (st : GameState) (s : Nat) (st2 : GameState) (r : Bool) (p : Player),
      st.mode = Mode.COLLAPSE →
      st.collapse_index < st.collapse_moves.length →
      st.next_player_after_collapse = some p →
      collapse_step st s = some (st2, r) →
      st2.collapse_moves.length ≤ st2.collapse_index →
      st2.mode = Mode.PLAY ∧ st2.current_player = p) := by
  constructor
  · intro st c1 c2 st2 hmode hne hloop hadd
    rw [add_spooky_move_loop_eq st c1 c2 hmode hne hloop] at hadd
    injection hadd with hadd
    subst hadd
    refine ⟨rfl, rfl, rfl, ?_⟩
    intro h
    injection h with h
    exact other_player_ne st.current_player h
  · intro st s st2 r p hmode hcur hnext hstep hend
    rcases collapse_step_some_cases st s st2 r hmode hcur hstep with ⟨he, _⟩ | ⟨_, _, _, cms2, bd2, hp, he⟩
    · rw [he] at hend
      omega
    · subst he
      rw [finishStep_moves, finishStep_collapse_index] at hend
      obtain ⟨h1, h2⟩ := finishStep_end st cms2 bd2 hend
      refine ⟨h1, ?_⟩
      rw [h2, hnext]

def oneMoveEpisodeResult : GameState :=
  { oneMoveEpisode with
    mode := Mode.PLAY
    current_player := Player.O
    collapse_index := 1
    collapse_moves := [{ player := Player.X, index := 1, cells := (0, 1), collapsed_to := some 0 }]
    collapsed_board :=
      [some (Player.X, 1), none, none, none, none, none, none, none, none] }

theorem collapse_episode_chooser_spec_witness :
    oneMoveEpisodeResult.mode = Mode.PLAY ∧
    oneMoveEpisodeResult.current_player = Player.O :=
  collapse_episode_chooser_spec.2 oneMoveEpisode 0 oneMoveEpisodeResult true Player.O
    rfl (by decide) rfl (by rfl) (by decide)

/-- Claim C9: a loop-free placement in `PLAY` mode bumps the mover's
sequence counter, appends the new unresolved move with that next
sequence number and the given cell pair to the ledger, hands the turn
to the other player, and stays in `PLAY` mode. -/
theorem add_spooky_move_no_loop_spec (st : GameState) (c1 c2 : Nat) (st2 : GameState)
    (hmode : st.mode = Mode.PLAY) (hne : c1 ≠ c2)
    (hloop : would_create_loop st.moves (c1, c2) = false)
    (hadd : add_spooky_move st c1 c2 = some st2) :
    st2.move_counter st.current_player = st.move_counter st.current_player + 1 ∧
    (∀ p : Player, p ≠ st.current_player → st2.move_counter p = st.move_counter p) ∧
    st2.moves = st.moves ++
      [{ player := st.current_player
         index := st.move_counter st.current_player + 1
         cells := (c1, c2)
         collapsed_to := none }] ∧
    st2.current_player = other_player st.current_player ∧
    st2.mode = Mode.PLAY := by
  rw [add_spooky_move_noloop_eq st c1 c2 hmode hne hloop] at hadd
  injection hadd with hadd
  subst hadd
  refine ⟨?_, ?_, rfl, rfl, hmode⟩
  · simp [bumpCounter]
  · intro p hp
    simp [bumpCounter, hp]

def firstMoveState : GameState :=
  { resetState with
    move_counter := bumpCounter resetState
    moves := resetState.moves ++ [newMove resetState 0 1]
    current_player := other_player resetState.current_player }

theorem add_spooky_move_no_loop_spec_witness :
    firstMoveState.move_counter Player.X = 1 ∧ firstMoveState.mode = Mode.PLAY := by
  have h := add_spooky_move_no_loop_spec resetState 0 1 firstMoveState
    rfl (by decide) (by rfl) (by rfl)
  exact ⟨h.1, h.2.2.2.2⟩

/-- Claim C8 (amended): in `COLLAPSE` mode, with the nine-cell board, a
valid square argument and implicated moves whose cells are valid
squares, `collapse_step` never raises: it always returns a boolean,
and invalid choices are signalled by `false` alone.  (In `PLAY` mode
the method's `assert self.mode == 'COLLAPSE'` fails instead.) -/
theorem collapse_step_no_raise_in_collapse (st : GameState) (s : Nat)
    (hmode : st.mode = Mode.COLLAPSE)
    (hb : st.collapsed_board.length = 9)
    (hs : s < 9)
    (hcells : ∀ m ∈ st.collapse_moves, m.cells.1 < 9 ∧ m.cells.2 < 9) :
    ∃ r, collapse_step st s = some r := by
  by_cases hcur : st.collapse_index < st.collapse_moves.length
  · by_cases hcell : s = (st.collapse_moves.get ⟨st.collapse_index, hcur⟩).cells.1 ∨
        s = (st.collapse_moves.get ⟨st.collapse_index, hcur⟩).cells.2
    · have hins : s < st.collapsed_board.length := by omega
      cases hbd : st.collapsed_board[s]? with
      | none =>
        rw [List.getElem?_eq_getElem hins] at hbd
        exact Option.noConfusion hbd
      | some w =>
        cases w with
        | some v =>
          exact ⟨(st, false), (collapse_step_rejects st s hmode).2.2 hcur v hcell hbd⟩
        | none =>
          rw [collapse_step_accepted_eq st s hmode hcur hcell hbd]
          have hrange : ∀ m ∈ st.collapse_moves.set st.collapse_index
              { st.collapse_moves.get ⟨st.collapse_index, hcur⟩ with collapsed_to := some s },
              m.cells.1 <
                (st.collapsed_board.set s
                  (some ((st.collapse_moves.get ⟨st.collapse_index, hcur⟩).player,
                         (st.collapse_moves.get ⟨st.collapse_index, hcur⟩).index))).length ∧
              m.cells.2 <
                (st.collapsed_board.set s
                  (some ((st.collapse_moves.get ⟨st.collapse_index, hcur⟩).player,
                         (st.collapse_moves.get ⟨st.collapse_index, hcur⟩).index))).length := by
            intro m hm
            rw [List.length_set, hb]
            rcases List.mem_or_eq_of_mem_set hm with h | h
            · exact hcells m h
            · rw [h]
              exact hcells (st.collapse_moves.get ⟨st.collapse_index, hcur⟩)
                (st.collapse_moves.get_mem st.collapse_index hcur)
          obtain ⟨⟨cms2, bd2⟩, hp⟩ := propagate_total _ hrange
          rw [hp]
          exact ⟨(finishStep st cms2 bd2, true), rfl⟩
    · exact ⟨(st, false), (collapse_step_rejects st s hmode).2.1 hcur
        (by push_neg at hcell; exact hcell)⟩
  · exact ⟨(st, true), (collapse_step_rejects st s hmode).1 (by omega)⟩

theorem collapse_step_no_raise_witness :
    ∃ r, collapse_step pastEndState 3 = some r :=
  collapse_step_no_raise_in_collapse pastEndState 3 rfl (by decide) (by decide)
    (by intro m hm; exact absurd hm (List.not_mem_nil m))

/-- Claim C8 (counterexample): called with the engine in `PLAY` mode,
`collapse_step` raises (the mode assertion fails) instead of returning
a boolean. -/
theorem collapse_step_play_mode_raises_cex :
    resetState.mode = Mode.PLAY ∧ collapse_step resetState 0 = none :=
  ⟨rfl, rfl⟩

/-- Claim C3: when a placement closes a loop, the post-append ledger is
partitioned by testing only each move's first listed cell for
membership in the connected component of `cell_a`: exactly the moves
whose first cell is reachable from `cell_a` become the implicated
list, both output lists keep the original ledger order, nothing is
dropped or duplicated, the mode becomes `COLLAPSE`, and the cursor sits
at the newly-created move's position — the last slot of the implicated
list, which the new move occupies. -/
theorem add_spooky_move_loop_partition (st : GameState) (c1 c2 : Nat) (st2 : GameState)
    (hmode : st.mode = Mode.PLAY) (hne : c1 ≠ c2)
    (hloop : would_create_loop st.moves (c1, c2) = true)
    (hadd : add_spooky_move st c1 c2 = some st2) :
    (∀ m ∈ st2.collapse_moves, m ∈ st.moves ++ [newMove st c1 c2] ∧
      Reach (st.moves ++ [newMove st c1 c2]) c1 m.cells.1) ∧
    (∀ m ∈ st2.moves, m ∈ st.moves ++ [newMove st c1 c2] ∧
      ¬ Reach (st.moves ++ [newMove st c1 c2]) c1 m.cells.1) ∧
    (∀ m ∈ st.moves ++ [newMove st c1 c2],
      (Reach (st.moves ++ [newMove st c1 c2]) c1 m.cells.1 → m ∈ st2.collapse_moves) ∧
      (¬ Reach (st.moves ++ [newMove st c1 c2]) c1 m.cells.1 → m ∈ st2.moves)) ∧
    st2.collapse_moves.Sublist (st.moves ++ [newMove st c1 c2]) ∧
    st2.moves.Sublist (st.moves ++ [newMove st c1 c2]) ∧
    st2.collapse_moves.length + st2.moves.length = (st.moves ++ [newMove st c1 c2]).length ∧
    st2.mode = Mode.COLLAPSE ∧
    st2.collapse_index = st2.collapse_moves.length - 1 ∧
    st2.collapse_moves.getLast? = some (newMove st c1 c2) := by
  rw [add_spooky_move_loop_eq st c1 c2 hmode hne hloop] at hadd
  injection hadd with hadd
  subst hadd
  dsimp only
  have hstart : c1 ∈ get_connected_component (st.moves ++ [newMove st c1 c2]) c1 :=
    start_mem_get_connected_component _ _
  have hsplit : (st.moves ++ [newMove st c1 c2]).filter
      (fun m => decide (m.cells.1 ∈
        get_connected_component (st.moves ++ [newMove st c1 c2]) c1)) =
      st.moves.filter (fun m => decide (m.cells.1 ∈
        get_connected_component (st.moves ++ [newMove st c1 c2]) c1)) ++ [newMove st c1 c2] := by
    rw [List.filter_append]
    congr 1
    have hp : (decide ((newMove st c1 c2).cells.1 ∈
        get_connected_component (st.moves ++ [newMove st c1 c2]) c1)) = true :=
      decide_eq_true hstart
    rw [List.filter_cons, if_pos hp, List.filter_nil]
  refine ⟨?_, ?_, ?_, List.filter_sublist _, List.filter_sublist _, ?_, rfl, rfl, ?_⟩
  · intro m hm
    obtain ⟨h1, h2⟩ := List.mem_filter.mp hm
    exact ⟨h1, mem_get_connected_component.mp (of_decide_eq_true h2)⟩
  · intro m hm
    obtain ⟨h1, h2⟩ := List.mem_filter.mp hm
    exact ⟨h1, fun hr => (of_decide_eq_true h2) (mem_get_connected_component.mpr hr)⟩
  · intro m hm
    constructor
    · intro hr
      exact List.mem_filter.mpr ⟨hm,
        decide_eq_true (mem_get_connected_component.mpr hr)⟩
    · intro hr
      exact List.mem_filter.mpr ⟨hm,
        decide_eq_true (fun hc => hr (mem_get_connected_component.mp hc))⟩
  · have := @List.length_eq_length_filter_add Move (st.moves ++ [newMove st c1 c2])
      (fun m : Move => decide (m.cells.1 ∈
        get_connected_component (st.moves ++ [newMove st c1 c2]) c1))
    have hcongr : (st.moves ++ [newMove st c1 c2]).filter
        (fun m => decide (m.cells.1 ∉
          get_connected_component (st.moves ++ [newMove st c1 c2]) c1)) =
        (st.moves ++ [newMove st c1 c2]).filter
        (fun m => !(decide (m.cells.1 ∈
          get_connected_component (st.moves ++ [newMove st c1 c2]) c1))) := by
      apply List.filter_congr
      intro m _
      exact decide_not
    rw [hcongr]
    omega
  · rw [hsplit]
    exact List.getLast?_concat _

/-- The spec's §8 scenario: X has placed `(0,1)`, O has placed `(1,2)`,
and X is about to place `(0,2)`, closing the loop `0-1-2-0`. -/
def ledgerTwo : GameState :=
  { resetState with
    moves := [{ player := Player.X, index := 1, cells := (0, 1) },
              { player := Player.O, index := 1, cells := (1, 2) }]
    move_counter := fun p => match p with | Player.X => 1 | Player.O => 1
    current_player := Player.X }

def ledgerTwoLoopResult : GameState :=
  { ledgerTwo with
    move_counter := bumpCounter ledgerTwo
    cycle_creator := some Player.X
    collapse_chooser := some Player.O
    next_player_after_collapse := some Player.O
    moves := []
    collapse_moves := [{ player := Player.X, index := 1, cells := (0, 1) },
                       { player := Player.O, index := 1, cells := (1, 2) },
                       { player := Player.X, index := 2, cells := (0, 2) }]
    mode := Mode.COLLAPSE
    collapse_index := 2 }

theorem add_spooky_move_loop_partition_witness :
    ledgerTwoLoopResult.mode = Mode.COLLAPSE ∧
    ledgerTwoLoopResult.collapse_index = ledgerTwoLoopResult.collapse_moves.length - 1 ∧
    ledgerTwoLoopResult.collapse_moves.getLast? = some (newMove ledgerTwo 0 2) := by
  have h := add_spooky_move_loop_partition ledgerTwo 0 2 ledgerTwoLoopResult
    rfl (by decide) (by rfl) (by rfl)
  exact ⟨h.2.2.2.2.2.2.1, h.2.2.2.2.2.2.2.1, h.2.2.2.2.2.2.2.2⟩

/-! ### Winner evaluation -/

/-- A fully-resolved three-in-a-row for `p`: each square of the line is
occupied and owned by `p`. -/
def IsWinLine (b : Board) (p : Player) (l : Nat × Nat × Nat) : Prop :=
  ((readCell b l.1).map Prod.fst = some p) ∧
  ((readCell b l.2.1).map Prod.fst = some p) ∧
  ((readCell b l.2.2).map Prod.fst = some p)

instance (b : Board) (p : Player) (l : Nat × Nat × Nat) : Decidable (IsWinLine b p l) :=
  inferInstanceAs (Decidable (((readCell b l.1).map Prod.fst = some p) ∧
    ((readCell b l.2.1).map Prod.fst = some p) ∧
    ((readCell b l.2.2).map Prod.fst = some p)))

/-- The sequence number occupying a square (0 on an empty square; only
used on occupied squares). -/
def seqAt (b : Board) (c : Nat) : Nat :=
  match readCell b c with
  | some t => t.2
  | none => 0

/-- The tie-break score of a line: the sum of the three occupying
sequence numbers. -/
def lineSum (b : Board) (l : Nat × Nat × Nat) : Nat :=
  seqAt b l.1 + seqAt b l.2.1 + seqAt b l.2.2

theorem winsForEntry_eq (b : Board) (p : Player) (a : Nat × Nat × Nat) :
    winsForEntry b p a =
      if IsWinLine b p a then some (a, lineSum b a) else none := by
  rw [winsForEntry]
  cases r1 : readCell b a.1 with
  | none =>
    rw [if_neg (by simp [IsWinLine, r1])]
  | some t1 =>
    obtain ⟨pa, ia⟩ := t1
    cases r2 : readCell b a.2.1 with
    | none =>
      rw [if_neg (by simp [IsWinLine, r2])]
    | some t2 =>
      obtain ⟨pb, ib⟩ := t2
      cases r3 : readCell b a.2.2 with
      | none => rw [if_neg (by simp [IsWinLine, r3])]
      | some t3 =>
        obtain ⟨pc, ic⟩ := t3
        dsimp only
        have hiff : IsWinLine b p a ↔ (pa = p ∧ pb = p ∧ pc = p) := by
          simp [IsWinLine, r1, r2, r3]
        by_cases hw : pa = p ∧ pb = p ∧ pc = p
        · rw [if_pos hw, if_pos (hiff.mpr hw)]
          have : lineSum b a = ia + ib + ic := by
            simp [lineSum, seqAt, r1, r2, r3]
          rw [this]
        · rw [if_neg hw, if_neg (fun hc => hw (hiff.mp hc))]

theorem winsFor_mem {b : Board} {p : Player} {l : Nat × Nat × Nat} {s : Nat} :
    (l, s) ∈ winsFor b p ↔ l ∈ winLines ∧ IsWinLine b p l ∧ s = lineSum b l := by
  rw [winsFor, List.mem_filterMap]
  constructor
  · rintro ⟨a, ha, hfa⟩
    rw [winsForEntry_eq] at hfa
    split_ifs at hfa with hw
    · injection hfa with hfa
      injection hfa with h1 h2
      subst h1
      exact ⟨ha, hw, h2.symm⟩
  · rintro ⟨hl, hw, hs⟩
    refine ⟨l, hl, ?_⟩
    rw [winsForEntry_eq, if_pos hw, hs]

theorem winsFor_eq_nil_iff {b : Board} {p : Player} :
    winsFor b p = [] ↔ ∀ l ∈ winLines, ¬ IsWinLine b p l := by
  rw [winsFor, List.filterMap_eq_nil_iff]
  constructor
  · intro h l hl hw
    have := h l hl
    rw [winsForEntry_eq, if_pos hw] at this
    exact Option.noConfusion this
  · intro h a ha
    rw [winsForEntry_eq, if_neg (h a ha)]

theorem minBySum_mem (x : (Nat × Nat × Nat) × Nat) (xs : List ((Nat × Nat × Nat) × Nat)) :
    minBySum x xs ∈ x :: xs := by
  induction xs generalizing x with
  | nil => exact List.mem_singleton.mpr rfl
  | cons t ts ih =>
    rw [minBySum, List.foldl_cons]
    rw [show List.foldl (fun best t => if t.2 < best.2 then t else best)
      (if t.2 < x.2 then t else x) ts = minBySum (if t.2 < x.2 then t else x) ts from rfl]
    have := ih (if t.2 < x.2 then t else x)
    rcases List.mem_cons.mp this with h | h
    · rw [h]
      split_ifs with hc
      · exact List.mem_cons_of_mem _ (List.mem_cons_self _ _)
      · exact List.mem_cons_self _ _
    · exact List.mem_cons_of_mem _ (List.mem_cons_of_mem _ h)

theorem minBySum_le (x : (Nat × Nat × Nat) × Nat) (xs : List ((Nat × Nat × Nat) × Nat)) :
    ∀ y ∈ x :: xs, (minBySum x xs).2 ≤ y.2 := by
  induction xs generalizing x with
  | nil =>
    intro y hy
    rw [List.mem_singleton.mp hy]
    exact le_rfl
  | cons t ts ih =>
    intro y hy
    rw [minBySum, List.foldl_cons]
    rw [show List.foldl (fun best t => if t.2 < best.2 then t else best)
      (if t.2 < x.2 then t else x) ts = minBySum (if t.2 < x.2 then t else x) ts from rfl]
    have hself := ih (if t.2 < x.2 then t else x) _
      (List.mem_cons_self (if t.2 < x.2 then t else x) ts)
    rcases List.mem_cons.mp hy with h | h
    · rw [h]
      have hx : (if t.2 < x.2 then t else x).2 ≤ x.2 := by
        split_ifs with hc
        · omega
        · exact le_rfl
      omega
    · rcases List.mem_cons.mp h with h2 | h2
      · rw [h2]
        have hx : (if t.2 < x.2 then t else x).2 ≤ t.2 := by
          split_ifs with hc
          · exact le_rfl
          · omega
        omega
      · exact ih (if t.2 < x.2 then t else x) y (List.mem_cons_of_mem _ h2)

/-- Claim C5: `check_winner` returns the null result when neither
player owns a fully-resolved line; when exactly one player owns
line(s), that player with a minimum-sum winning line and its sum; when
both players own lines, the strictly smaller of the two minimum sums
wins outright with the loser's minimal line and sum attached, and equal
minima give a draw reporting the shared minimal sum. -/
theorem check_winner_spec (b : Board) :
    ((∀ l ∈ winLines, ¬ IsWinLine b Player.X l) →
     (∀ l ∈ winLines, ¬ IsWinLine b Player.O l) →
      check_winner b = WinResult.noWinner) ∧
    (∀ p : Player,
      (∃ l ∈ winLines, IsWinLine b p l) →
      (∀ l ∈ winLines, ¬ IsWinLine b (other_player p) l) →
      ∃ l s, check_winner b = WinResult.winner p l s ∧
        l ∈ winLines ∧ IsWinLine b p l ∧ s = lineSum b l ∧
        (∀ l2 ∈ winLines, IsWinLine b p l2 → s ≤ lineSum b l2)) ∧
    ((∃ l ∈ winLines, IsWinLine b Player.X l) →
     (∃ l ∈ winLines, IsWinLine b Player.O l) →
      ∃ lx sx lo so,
        lx ∈ winLines ∧ IsWinLine b Player.X lx ∧ sx = lineSum b lx ∧
        (∀ l2 ∈ winLines, IsWinLine b Player.X l2 → sx ≤ lineSum b l2) ∧
        lo ∈ winLines ∧ IsWinLine b Player.O lo ∧ so = lineSum b lo ∧
        (∀ l2 ∈ winLines, IsWinLine b Player.O l2 → so ≤ lineSum b l2) ∧
        (sx < so → check_winner b = WinResult.winnerBoth Player.X lx sx Player.O lo so) ∧
        (so < sx → check_winner b = WinResult.winnerBoth Player.O lo so Player.X lx sx) ∧
        (sx = so → check_winner b = WinResult.draw sx)) := by
  refine ⟨?_, ?_, ?_⟩
  · intro hx ho
    rw [check_winner, winsFor_eq_nil_iff.mpr hx, winsFor_eq_nil_iff.mpr ho]
  · rintro p ⟨l0, hl0, hw0⟩ hother
    have hne : winsFor b p ≠ [] := by
      intro hnil
      exact (winsFor_eq_nil_iff.mp hnil) l0 hl0 hw0
    cases p with
    | X =>
      cases hwx : winsFor b Player.X with
      | nil => exact absurd hwx hne
      | cons x xs =>
        have hwo : winsFor b Player.O = [] :=
          winsFor_eq_nil_iff.mpr (by simpa [other_player] using hother)
        have hmem := winsFor_mem.mp (hwx ▸ minBySum_mem x xs)
        refine ⟨(minBySum x xs).1, (minBySum x xs).2, ?_, hmem.1, hmem.2.1, hmem.2.2, ?_⟩
        · rw [check_winner, hwx, hwo]
        · intro l2 hl2 hw2
          have : (l2, lineSum b l2) ∈ winsFor b Player.X :=
            winsFor_mem.mpr ⟨hl2, hw2, rfl⟩
          exact minBySum_le x xs _ (hwx ▸ this)
    | O =>
      cases hwo : winsFor b Player.O with
      | nil => exact absurd hwo hne
      | cons o os =>
        have hwx : winsFor b Player.X = [] :=
          winsFor_eq_nil_iff.mpr (by simpa [other_player] using hother)
        have hmem := winsFor_mem.mp (hwo ▸ minBySum_mem o os)
        refine ⟨(minBySum o os).1, (minBySum o os).2, ?_, hmem.1, hmem.2.1, hmem.2.2, ?_⟩
        · rw [check_winner, hwx, hwo]
        · intro l2 hl2 hw2
          have : (l2, lineSum b l2) ∈ winsFor b Player.O :=
            winsFor_mem.mpr ⟨hl2, hw2, rfl⟩
          exact minBySum_le o os _ (hwo ▸ this)
  · rintro ⟨lx0, hlx0, hwx0⟩ ⟨lo0, hlo0, hwo0⟩
    have hneX : winsFor b Player.X ≠ [] := by
      intro hnil
      exact (winsFor_eq_nil_iff.mp hnil) lx0 hlx0 hwx0
    have hneO : winsFor b Player.O ≠ [] := by
      intro hnil
      exact (winsFor_eq_nil_iff.mp hnil) lo0 hlo0 hwo0
    cases hwx : winsFor b Player.X with
    | nil => exact absurd hwx hneX
    | cons x xs =>
      cases hwo : winsFor b Player.O with
      | nil => exact absurd hwo hneO
      | cons o os =>
        have hmx := winsFor_mem.mp (hwx ▸ minBySum_mem x xs)
        have hmo := winsFor_mem.mp (hwo ▸ minBySum_mem o os)
        refine ⟨(minBySum x xs).1, (minBySum x xs).2, (minBySum o os).1, (minBySum o os).2,
          hmx.1, hmx.2.1, hmx.2.2, ?_, hmo.1, hmo.2.1, hmo.2.2, ?_, ?_, ?_, ?_⟩
        · intro l2 hl2 hw2
          exact minBySum_le x xs _ (hwx ▸ winsFor_mem.mpr ⟨hl2, hw2, rfl⟩)
        · intro l2 hl2 hw2
          exact minBySum_le o os _ (hwo ▸ winsFor_mem.mpr ⟨hl2, hw2, rfl⟩)
        · intro hlt
          rw [check_winner, hwx, hwo]
          dsimp only
          rw [if_pos hlt]
        · intro hlt
          rw [check_winner, hwx, hwo]
          dsimp only
          rw [if_neg (by omega), if_pos hlt]
        · intro heq
          rw [check_winner, hwx, hwo]
          dsimp only
          rw [if_neg (by omega), if_neg (by omega)]

/-- Witness for claim C5: the empty board yields the null result. -/
theorem check_winner_spec_witness :
    check_winner (List.replicate 9 none) = WinResult.noWinner :=
  (check_winner_spec (List.replicate 9 none)).1 (by decide) (by decide)

/-! ### Reachable states and the uniqueness / cursor invariants -/

/-- Engine states reachable through the public operations. -/
inductive ReachableState : GameState → Prop where
  | base : ReachableState resetState
  | add (st st2 : GameState) (c1 c2 : Nat) :
      ReachableState st → add_spooky_move st c1 c2 = some st2 → ReachableState st2
  | step (st st2 : GameState) (s : Nat) (r : Bool) :
      ReachableState st → collapse_step st s = some (st2, r) → ReachableState st2

/-- Every move identity alive in a state: unresolved moves in the
ledger, unresolved implicated moves, and identities on the board. -/
def allIds (st : GameState) : List (Player × Nat) :=
  st.moves.map moveId ++ unresolvedIds st.collapse_moves ++ boardIds st.collapsed_board

/-- The inductive invariant: the live identities are pairwise distinct,
bounded by the per-player counters, ledger moves are unresolved, and in
`COLLAPSE` mode the cursor addresses an unresolved implicated move. -/
def StateInv (st : GameState) : Prop :=
  (allIds st).Nodup ∧
  (∀ id ∈ allIds st, id.2 ≤ st.move_counter id.1) ∧
  (∀ m ∈ st.moves, m.collapsed_to = none) ∧
  (st.mode = Mode.COLLAPSE →
    ∃ h : st.collapse_index < st.collapse_moves.length,
      (st.collapse_moves.get ⟨st.collapse_index, h⟩).collapsed_to = none)

theorem add_spooky_move_some_imp {st : GameState} {c1 c2 : Nat} {st2 : GameState}
    (h : add_spooky_move st c1 c2 = some st2) : st.mode = Mode.PLAY ∧ c1 ≠ c2 := by
  by_cases hc : st.mode = Mode.PLAY ∧ c1 ≠ c2
  · exact hc
  · rw [add_spooky_move, if_neg hc] at h
    exact Option.noConfusion h

theorem collapse_step_some_imp_mode {st : GameState} {s : Nat}
    {t : GameState × Bool} (h : collapse_step st s = some t) :
    st.mode = Mode.COLLAPSE := by
  by_cases hm : st.mode = Mode.COLLAPSE
  · exact hm
  · rw [collapse_step, if_neg hm] at h
    exact Option.noConfusion h

theorem counter_le_bump (st : GameState) (p : Player) :
    st.move_counter p ≤ bumpCounter st p := by
  rw [bumpCounter]
  split_ifs with h
  · rw [h]
    omega
  · exact le_rfl

theorem fresh_id_not_mem {st : GameState}
    (hbound : ∀ id ∈ allIds st, id.2 ≤ st.move_counter id.1) :
    (st.current_player, st.move_counter st.current_player + 1) ∉ allIds st := by
  intro hmem
  have := hbound _ hmem
  simp at this

theorem unresolvedIds_all_unresolved {l : List Move}
    (h : ∀ m ∈ l, m.collapsed_to = none) :
    unresolvedIds l = l.map moveId := by
  rw [unresolvedIds, List.filter_eq_self.mpr]
  intro m hm
  rw [h m hm]
  rfl

/-- Resolving the unresolved move at a valid index removes exactly its
identity from the unresolved identities. -/
theorem unresolvedIds_set_resolve :
    ∀ {ms : List Move} {i : Nat} (h : i < ms.length),
      (ms.get ⟨i, h⟩).collapsed_to = none → ∀ c : Nat,
      List.Perm
        (moveId (ms.get ⟨i, h⟩) ::
          unresolvedIds (ms.set i { ms.get ⟨i, h⟩ with collapsed_to := some c }))
        (unresolvedIds ms) := by
  intro ms
  induction ms with
  | nil => intro i h; simp at h
  | cons m rest ih =>
    intro i h hunr c
    cases i with
    | zero =>
      simp only [List.get] at hunr ⊢
      rw [List.set_cons_zero]
      rw [unresolvedIds_cons_resolved (by simp), unresolvedIds_cons_unresolved (by rw [hunr]; rfl)]
    | succ i =>
      simp only [List.get] at hunr ⊢
      rw [List.set_cons_succ]
      have hi : i < rest.length := by
        simp only [List.length_cons] at h
        omega
      cases hm : m.collapsed_to with
      | some c0 =>
        rw [unresolvedIds_cons_resolved (by rw [hm]; simp),
          unresolvedIds_cons_resolved (by rw [hm]; simp)]
        exact ih hi hunr c
      | none =>
        rw [unresolvedIds_cons_unresolved (by rw [hm]; rfl),
          unresolvedIds_cons_unresolved (by rw [hm]; rfl)]
        refine (List.Perm.swap (moveId m) _ _).trans ?_
        exact (ih hi hunr c).cons (moveId m)

/-- A board read of an occupied square exhibits its identity among the
board identities. -/
theorem mem_boardIds_of_read :
    ∀ {b : Board} {c : Nat} {v : Player × Nat},
      b[c]? = some (some v) → v ∈ boardIds b := by
  intro b
  induction b with
  | nil => intro c v h; simp at h
  | cons x xs ih =>
    intro c v h
    cases c with
    | zero =>
      rw [List.getElem?_cons_zero] at h
      injection h with h
      rw [h, boardIds_cons_some]
      exact List.mem_cons_self _ _
    | succ c =>
      rw [List.getElem?_cons_succ] at h
      cases x with
      | none => rw [boardIds_cons_none]; exact ih h
      | some a => rw [boardIds_cons_some]; exact List.mem_cons_of_mem _ (ih h)

/-- Distinct board identities mean no identity sits on two squares. -/
theorem boardIds_nodup_inj :
    ∀ {b : Board}, (boardIds b).Nodup →
      ∀ (i j : Nat) (v : Player × Nat),
        b[i]? = some (some v) → b[j]? = some (some v) → i = j := by
  intro b
  induction b with
  | nil => intro _ i j v hi; simp at hi
  | cons x xs ih =>
    intro hnd i j v hi hj
    cases i with
    | zero =>
      cases j with
      | zero => rfl
      | succ j =>
        rw [List.getElem?_cons_zero] at hi
        injection hi with hi
        rw [List.getElem?_cons_succ] at hj
        rw [hi, boardIds_cons_some] at hnd
        exact absurd (mem_boardIds_of_read hj) (List.nodup_cons.mp hnd).1
    | succ i =>
      cases j with
      | zero =>
        rw [List.getElem?_cons_zero] at hj
        injection hj with hj
        rw [List.getElem?_cons_succ] at hi
        rw [hj, boardIds_cons_some] at hnd
        exact absurd (mem_boardIds_of_read hi) (List.nodup_cons.mp hnd).1
      | succ j =>
        rw [List.getElem?_cons_succ] at hi hj
        cases x with
        | none =>
          rw [boardIds_cons_none] at hnd
          exact congrArg Nat.succ (ih hnd i j v hi hj)
        | some a =>
          rw [boardIds_cons_some] at hnd
          exact congrArg Nat.succ (ih (List.nodup_cons.mp hnd).2 i j v hi hj)

theorem get_collapsed_of_read {ms : List Move} {i : Nat} {m : Move} (h : i < ms.length)
    (hr : ms[i]? = some m) : ms.get ⟨i, h⟩ = m := by
  have h2 : ms[i]? = some (ms.get ⟨i, h⟩) := List.getElem?_eq_getElem h
  rw [hr] at h2
  injection h2 with h2
  exact h2.symm

theorem stateInv_reset : StateInv resetState := by
  refine ⟨?_, ?_, ?_, ?_⟩
  · show List.Nodup []
    exact List.nodup_nil
  · intro id hid
    exact absurd hid (List.not_mem_nil id)
  · intro m hm
    exact absurd hm (List.not_mem_nil m)
  · intro h
    exact Mode.noConfusion h

theorem stateInv_add {st : GameState} {c1 c2 : Nat} {st2 : GameState}
    (hinv : StateInv st) (hadd : add_spooky_move st c1 c2 = some st2) :
    StateInv st2 := by
  obtain ⟨hmode, hne⟩ := add_spooky_move_some_imp hadd
  obtain ⟨hnd, hbound, hunr, _⟩ := hinv
  have hfresh := fresh_id_not_mem hbound
  by_cases hloop : would_create_loop st.moves (c1, c2) = true
  · rw [add_spooky_move_loop_eq st c1 c2 hmode hne hloop] at hadd
    injection hadd with hadd
    subst hadd
    set mv := newMove st c1 c2 with hmv
    set moves2 := st.moves ++ [mv] with hmoves2
    set comp := get_connected_component moves2 c1 with hcomp
    set tc := moves2.filter (fun m => decide (m.cells.1 ∈ comp)) with htc
    set keep := moves2.filter (fun m => decide (m.cells.1 ∉ comp)) with hkeep
    have hall2 : ∀ m ∈ moves2, m.collapsed_to = none := by
      intro m hm
      rcases List.mem_append.mp hm with h | h
      · exact hunr m h
      · rw [List.mem_singleton.mp h]
        rfl
    have htc_sub : ∀ m ∈ tc, m ∈ moves2 := fun m hm => (List.mem_filter.mp hm).1
    have hkeep_sub : ∀ m ∈ keep, m ∈ moves2 := fun m hm => (List.mem_filter.mp hm).1
    have hUtc : unresolvedIds tc = tc.map moveId :=
      unresolvedIds_all_unresolved (fun m hm => hall2 m (htc_sub m hm))
    have hKT : List.Perm (keep ++ tc) moves2 := by
      have hkeep2 : keep = moves2.filter
          (fun m => !(decide (m.cells.1 ∈ comp))) := by
        apply List.filter_congr
        intro m _
        exact decide_not
      rw [hkeep2]
      exact List.perm_append_comm.trans
        (List.filter_append_perm (fun m => decide (m.cells.1 ∈ comp)) moves2)
    have hperm : List.Perm (allIds { st with
        move_counter := bumpCounter st
        cycle_creator := some st.current_player
        collapse_chooser := some (other_player st.current_player)
        next_player_after_collapse := some (other_player st.current_player)
        moves := keep
        collapse_moves := tc
        mode := Mode.COLLAPSE
        collapse_index := tc.length - 1 })
        (moveId mv :: (st.moves.map moveId ++ boardIds st.collapsed_board)) := by
      have h1 : List.Perm (keep.map moveId ++ tc.map moveId) (moves2.map moveId) := by
        rw [← List.map_append]
        exact hKT.map moveId
      have h2 := List.Perm.append_right (boardIds st.collapsed_board) h1
      have h3 : List.Perm (moves2.map moveId ++ boardIds st.collapsed_board)
          (moveId mv :: (st.moves.map moveId ++ boardIds st.collapsed_board)) := by
        rw [hmoves2, List.map_append, List.map_cons, List.map_nil, List.append_assoc,
          List.singleton_append]
        exact List.perm_middle
      show List.Perm (keep.map moveId ++ unresolvedIds tc ++ boardIds st.collapsed_board) _
      rw [hUtc]
      exact h2.trans h3
    have hsubAB : List.Sublist (st.moves.map moveId ++ boardIds st.collapsed_board)
        (allIds st) := by
      rw [allIds, List.append_assoc]
      exact (List.Sublist.refl _).append
        (List.sublist_append_right (unresolvedIds st.collapse_moves) _)
    have hABmem : ∀ id ∈ st.moves.map moveId ++ boardIds st.collapsed_board,
        id ∈ allIds st := fun id hid => hsubAB.subset hid
    refine ⟨?_, ?_, ?_, ?_⟩
    · rw [hperm.nodup_iff]
      refine List.nodup_cons.mpr ⟨?_, hsubAB.nodup hnd⟩
      intro hmem
      exact hfresh (hABmem _ hmem)
    · intro id hid
      rcases List.mem_cons.mp (hperm.mem_iff.mp hid) with h | h
      · rw [h]
        show (moveId mv).2 ≤ bumpCounter st (moveId mv).1
        simp [moveId, hmv, newMove, bumpCounter]
      · exact le_trans (hbound id (hABmem id h)) (counter_le_bump st id.1)
    · intro m hm
      exact hall2 m (hkeep_sub m hm)
    · intro _
      have hstart : c1 ∈ comp := start_mem_get_connected_component moves2 c1
      have hsplit : tc = st.moves.filter (fun m => decide (m.cells.1 ∈ comp)) ++ [mv] := by
        rw [htc, hmoves2, List.filter_append]
        congr 1
        have hp : (decide (mv.cells.1 ∈ comp)) = true := decide_eq_true hstart
        rw [List.filter_cons, if_pos hp, List.filter_nil]
      have hlen : tc.length =
          (st.moves.filter (fun m => decide (m.cells.1 ∈ comp))).length + 1 := by
        rw [hsplit, List.length_append, List.length_singleton]
      have hidx : tc.length - 1 < tc.length := by omega
      have hidx2 : tc.length - 1 =
          (st.moves.filter (fun m => decide (m.cells.1 ∈ comp))).length := by omega
      refine ⟨hidx, ?_⟩
      have hread : tc[tc.length - 1]? = some mv := by
        have h0 : tc[(st.moves.filter (fun m => decide (m.cells.1 ∈ comp))).length]? =
            some mv := by
          conv_lhs => rw [hsplit]
          rw [List.getElem?_append_right (le_refl _)]
          simp
        rw [hidx2]
        exact h0
      rw [get_collapsed_of_read hidx hread]
      rfl
  · have hloop2 : would_create_loop st.moves (c1, c2) = false := by
      cases h : would_create_loop st.moves (c1, c2)
      · rfl
      · exact absurd h hloop
    rw [add_spooky_move_noloop_eq st c1 c2 hmode hne hloop2] at hadd
    injection hadd with hadd
    subst hadd
    have hperm : List.Perm (allIds { st with
        move_counter := bumpCounter st
        moves := st.moves ++ [newMove st c1 c2]
        current_player := other_player st.current_player })
        (moveId (newMove st c1 c2) :: allIds st) := by
      show List.Perm ((st.moves ++ [newMove st c1 c2]).map moveId ++
        unresolvedIds st.collapse_moves ++ boardIds st.collapsed_board) _
      simp only [allIds, List.map_append, List.map_cons, List.map_nil,
        List.append_assoc, List.singleton_append]
      exact List.perm_middle
    refine ⟨?_, ?_, ?_, ?_⟩
    · rw [hperm.nodup_iff]
      exact List.nodup_cons.mpr ⟨hfresh, hnd⟩
    · intro id hid
      rcases List.mem_cons.mp (hperm.mem_iff.mp hid) with h | h
      · rw [h]
        show (moveId (newMove st c1 c2)).2 ≤ bumpCounter st (moveId (newMove st c1 c2)).1
        simp [moveId, newMove, bumpCounter]
      · exact le_trans (hbound id h) (counter_le_bump st id.1)
    · intro m hm
      rcases List.mem_append.mp hm with h | h
      · exact hunr m h
      · rw [List.mem_singleton.mp h]
        rfl
    · intro h
      dsimp only at h
      rw [hmode] at h
      exact Mode.noConfusion h

theorem exists_get_unres_of_eq {ms1 ms2 : List Move} {i1 i2 : Nat}
    (hm : ms1 = ms2) (hi : i1 = i2)
    (h : ∃ h2 : i2 < ms2.length, (ms2.get ⟨i2, h2⟩).collapsed_to = none) :
    ∃ h2 : i1 < ms1.length, (ms1.get ⟨i1, h2⟩).collapsed_to = none := by
  subst hm
  subst hi
  exact h

theorem stateInv_step {st st2 : GameState} {s : Nat} {r : Bool}
    (hinv : StateInv st) (hstep : collapse_step st s = some (st2, r)) :
    StateInv st2 := by
  have hmode := collapse_step_some_imp_mode hstep
  obtain ⟨hnd, hbound, hunr, hcurs⟩ := hinv
  obtain ⟨hcur, hunres⟩ := hcurs hmode
  rcases collapse_step_some_cases st s st2 r hmode hcur hstep with
    ⟨he, _⟩ | ⟨_, hcell, hbd, cms2, bd2, hp, he⟩
  · subst he
    exact ⟨hnd, hbound, hunr, fun _ => ⟨hcur, hunres⟩⟩
  · subst he
    obtain ⟨p1, p2, p3, p4⟩ := propagate_spec _ hp
    have hb : List.Perm
        (boardIds (st.collapsed_board.set s
          (some ((st.collapse_moves.get ⟨st.collapse_index, hcur⟩).player,
                 (st.collapse_moves.get ⟨st.collapse_index, hcur⟩).index))))
        (moveId (st.collapse_moves.get ⟨st.collapse_index, hcur⟩) ::
          boardIds st.collapsed_board) :=
      boardIds_set_perm hbd
    have hu := unresolvedIds_set_resolve hcur hunres s
    have hpermU : List.Perm
        (unresolvedIds (st.collapse_moves.set st.collapse_index
          { st.collapse_moves.get ⟨st.collapse_index, hcur⟩ with collapsed_to := some s }) ++
          boardIds (st.collapsed_board.set s
            (some ((st.collapse_moves.get ⟨st.collapse_index, hcur⟩).player,
                   (st.collapse_moves.get ⟨st.collapse_index, hcur⟩).index))))
        (unresolvedIds st.collapse_moves ++ boardIds st.collapsed_board) := by
      refine ((List.Perm.append_left _ hb).trans ?_).trans (hu.append_right _)
      exact List.perm_middle
    have hfields := finishStep_preserved st cms2 bd2
    have hperm : List.Perm (allIds (finishStep st cms2 bd2)) (allIds st) := by
      show List.Perm ((finishStep st cms2 bd2).moves.map moveId ++
        unresolvedIds (finishStep st cms2 bd2).collapse_moves ++
        boardIds (finishStep st cms2 bd2).collapsed_board) _
      rw [finishStep_moves, finishStep_board, hfields.2.2.2.1, allIds]
      simp only [List.append_assoc]
      exact List.Perm.append_left _ (p4.trans hpermU)
    refine ⟨hperm.nodup_iff.mpr hnd, ?_, ?_, ?_⟩
    · intro id hid
      rw [hfields.2.2.2.2]
      exact hbound id (hperm.mem_iff.mp hid)
    · intro m hm
      rw [hfields.2.2.2.1] at hm
      exact hunr m hm
    · intro hmode2
      by_cases hend : cms2.length ≤ advanceCursor cms2 st.collapse_index
      · obtain ⟨hm, _⟩ := finishStep_end st cms2 bd2 hend
        rw [hm] at hmode2
        exact Mode.noConfusion hmode2
      · push_neg at hend
        have hspec := advanceCursor_spec cms2 st.collapse_index
        rcases hspec.2 with h | ⟨hlt, hval⟩
        · omega
        · exact exists_get_unres_of_eq (finishStep_moves st cms2 bd2)
            (finishStep_collapse_index st cms2 bd2) ⟨hlt, hval⟩

/-- Every reachable state satisfies the invariant. -/
theorem reachableState_inv {st : GameState} (h : ReachableState st) : StateInv st := by
  induction h with
  | base => exact stateInv_reset
  | add st st2 c1 c2 _ hadd ih => exact stateInv_add ih hadd
  | step st st2 s r _ hstep ih => exact stateInv_step ih hstep

/-- A `collapse_step` never overwrites an occupied square: the chosen
square is checked free, and forced propagation only writes to squares
whose read is `None`. -/
theorem collapse_step_preserves_occupied {st : GameState} {s : Nat}
    {st2 : GameState} {r : Bool} {c : Nat} {v : Player × Nat}
    (hstep : collapse_step st s = some (st2, r))
    (hc : st.collapsed_board[c]? = some (some v)) :
    st2.collapsed_board[c]? = some (some v) := by
  have hmode := collapse_step_some_imp_mode hstep
  by_cases hcur : st.collapse_index < st.collapse_moves.length
  · rcases collapse_step_some_cases st s st2 r hmode hcur hstep with
      ⟨he, _⟩ | ⟨_, hcell, hbd, cms2, bd2, hp, he⟩
    · subst he
      exact hc
    · subst he
      rw [finishStep_board]
      obtain ⟨_, _, p3, _⟩ := propagate_spec _ hp
      refine p3 c v ?_
      have hne : s ≠ c := by
        intro hh
        rw [hh] at hbd
        rw [hbd] at hc
        injection hc with hc
        exact Option.noConfusion hc
      rw [List.getElem?_set_ne hne]
      exact hc
  · have := (collapse_step_rejects st s hmode).1 (by omega)
    rw [this] at hstep
    injection hstep with hstep
    injection hstep with h1 _
    rw [← h1]
    exact hc

/-- Claim C7: in every reachable state the classical board carries each
resolved move's identity on at most one square; `collapse_step` (the
only operation that writes the board) never overwrites an occupied
square, forced propagation included; and an explicit attempt to resolve
the current move onto an occupied square is rejected with `false` and
no state change. -/
theorem board_uniqueness_invariant (st : GameState) (hreach : ReachableState st) :
    (∀ (i j : Nat) (v : Player × Nat),
      st.collapsed_board[i]? = some (some v) →
      st.collapsed_board[j]? = some (some v) → i = j) ∧
    (∀ (s : Nat) (st2 : GameState) (r : Bool) (c : Nat) (v : Player × Nat),
      collapse_step st s = some (st2, r) →
      st.collapsed_board[c]? = some (some v) →
      st2.collapsed_board[c]? = some (some v)) ∧
    (st.mode = Mode.COLLAPSE →
      ∀ (hcur : st.collapse_index < st.collapse_moves.length) (s : Nat) (v : Player × Nat),
      (s = (st.collapse_moves.get ⟨st.collapse_index, hcur⟩).cells.1 ∨
       s = (st.collapse_moves.get ⟨st.collapse_index, hcur⟩).cells.2) →
      st.collapsed_board[s]? = some (some v) →
      collapse_step st s = some (st, false)) := by
  obtain ⟨hnd, _, _, _⟩ := reachableState_inv hreach
  refine ⟨?_, ?_, ?_⟩
  · have hbnd : (boardIds st.collapsed_board).Nodup := by
      refine List.Nodup.sublist ?_ hnd
      rw [allIds]
      exact List.sublist_append_right
        (st.moves.map moveId ++ unresolvedIds st.collapse_moves) _
    exact boardIds_nodup_inj hbnd
  · intro s st2 r c v hstep hc
    exact collapse_step_preserves_occupied hstep hc
  · intro hmode hcur s v hcell hocc
    exact (collapse_step_rejects st s hmode).2.2 hcur v hcell hocc

/-- Claim C10: in every reachable state in `COLLAPSE` mode the cursor
is strictly inside the implicated list and points at a still-unresolved
move — so the cursor-past-the-end branch of `collapse_step` can never
run from a reachable state. -/
theorem reachable_collapse_cursor_invariant (st : GameState)
    (hreach : ReachableState st) (hmode : st.mode = Mode.COLLAPSE) :
    ∃ hcur : st.collapse_index < st.collapse_moves.length,
      (st.collapse_moves.get ⟨st.collapse_index, hcur⟩).collapsed_to = none :=
  (reachableState_inv hreach).2.2.2 hmode

/-- X `(0,1)`, O `(1,2)`, then X `(0,2)` closing the loop: the engine
state at the start of the spec's §8 collapse episode. -/
def w2 : GameState := (add_spooky_move firstMoveState 1 2).getD resetState

def w3 : GameState := (add_spooky_move w2 0 2).getD resetState

theorem reachable_w3 : ReachableState w3 :=
  ReachableState.add w2 w3 0 2
    (ReachableState.add firstMoveState w2 1 2
      (ReachableState.add resetState firstMoveState 0 1 ReachableState.base (by rfl))
      (by rfl))
    (by rfl)

/-- Continue after the episode: O `(3,4)`, X `(4,3)` closing a second
loop with squares 0, 1, 2 already occupied. -/
def w4 : GameState := ((collapse_step w3 0).getD (resetState, false)).1

def w5 : GameState := (add_spooky_move w4 3 4).getD resetState

def w6 : GameState := (add_spooky_move w5 4 3).getD resetState

def w7 : GameState := ((collapse_step w6 4).getD (resetState, false)).1

theorem reachable_w6 : ReachableState w6 :=
  ReachableState.add w5 w6 4 3
    (ReachableState.add w4 w5 3 4
      (ReachableState.step w3 w4 0 true reachable_w3 (by rfl))
      (by rfl))
    (by rfl)

theorem board_uniqueness_invariant_witness :
    w7.collapsed_board[0]? = some (some (Player.X, 2)) :=
  (board_uniqueness_invariant w6 reachable_w6).2.1 4 w7 true 0 (Player.X, 2)
    (by rfl) (by rfl)

theorem reachable_collapse_cursor_invariant_witness :
    ∃ hcur : w3.collapse_index < w3.collapse_moves.length,
      (w3.collapse_moves.get ⟨w3.collapse_index, hcur⟩).collapsed_to = none :=
  reachable_collapse_cursor_invariant w3 reachable_w3 (by rfl)

end QTTT
